import Mathlib

/-!
# psh: a small interactive shell

A shallow embedding of `psh.c` and the properties of its
parse / classify / execute pipeline.

Conventions of the embedding.

* A C string is the list of its characters before the terminating NUL; a
  `Char` stands for one C `char`.
* A NULL-terminated `char **` whose entries are never overwritten is the
  list of its entries before the NULL; where the code overwrites an entry
  with NULL (`exec_*`), the array is a `List (Option Tok)` with the NULLs
  explicit.
* System calls are answered by an oracle, so that every outcome of every
  call is covered; what a process did is recorded as a trace of events.
-/

namespace Psh

/-! ## Constants of `psh.c` -/

/-- A token: one argument string. -/
abbrev Tok := List Char

def MAX_ARG_NUM : Nat := 20
def MAX_ARG_LEN : Nat := 200

def CMD_NORMAL : Int := 0x00
def CMD_INPUT_REDIRECT : Int := 0x01
def CMD_OUTPUT_REDIRECT : Int := 0x02
def CMD_PIPELINE : Int := 0x04
def CMD_INVALID : Int := 0x08

def EXIT_SUCCESS : Int := 0
def EXIT_FAILURE : Int := 1
def STDIN_FILENO : Int := 0
def STDOUT_FILENO : Int := 1

/-- The delimiter string of `strsep(&stringp, " ")` holds this one character. -/
def DELIM : Char := ' '

/-! ## Tokenizer: `handle_input` -/

/-- The libc call `strsep(&stringp, " ")`, on the pair (returned token, new
`*stringp`).  A NULL `*stringp` gives NULL.  Otherwise the token starts at
`*stringp` and runs up to the first delimiter, which is overwritten with
NUL, and `*stringp` moves just past it; with no delimiter left the token is
the whole rest and `*stringp` becomes NULL. -/
def strsep : Option (List Char) → Option Tok × Option (List Char)
  | none => (none, none)
  | some s =>
    match s.dropWhile (fun c => c != DELIM) with
    | [] => (some s, none)
    | _ :: rest => (some (s.takeWhile (fun c => c != DELIM)), some rest)

/-- What `handle_input` leaves behind. -/
inductive Parsed where
  /-- The function called `exit(EXIT_FAILURE)`. -/
  | exit_failure
  /-- The function returned with these entries of `arg_vec` before the NULL. -/
  | args (arg_vec : List Tok)
  /-- The model ran out of fuel (shown below never to happen). -/
  | out_of_fuel
  deriving DecidableEq, Repr

/-- The `while` loop of `handle_input` (lines 193-203).  `arg_vec` holds the
entries stored so far, so `arg_num = arg_vec.length`.  `strsep` is called
before `arg_num` is tested, as in the source. -/
def handle_input_loop : Nat → Option (List Char) → List Tok → Parsed
  | 0, _, _ => Parsed.out_of_fuel
  | fuel + 1, stringp, arg_vec =>
    match strsep stringp with
    | (none, _) => Parsed.args arg_vec
    | (some token, stringp1) =>
      if arg_vec.length < MAX_ARG_NUM then
        if token ≠ [] then
          handle_input_loop fuel stringp1 (arg_vec ++ [token])
        else
          handle_input_loop fuel stringp1 arg_vec
      else
        Parsed.args arg_vec

/-- The function `handle_input`, on the line the user typed, without its
newline; the line is text, it holds no NUL.  `getline` stores the line and
the newline, so `num_read = line.length + 1`, and needs one more byte for
the NUL: it grows the 200-byte buffer, making `len > MAX_ARG_LEN`, exactly
when `num_read + 1 > MAX_ARG_LEN`.  Then line 189 replaces the newline by
NUL and the loop splits what is left. -/
def handle_input (line : List Char) : Parsed :=
  let num_read := line.length + 1
  if MAX_ARG_LEN < num_read + 1 then
    Parsed.exit_failure
  else
    handle_input_loop (line.length + 2) (some line) []

/-! ## Syntax classifier: `check_cmd` -/

/-- The locals of `check_cmd` while it scans (`pos` is `*pos`). -/
structure CheckState where
  item_offset : Int
  symbol_cnt : Int
  cmd_type : Int
  pos : Int
  deriving DecidableEq, Repr

/-- One pass of the `for` body of `check_cmd` (lines 121-136) on the entry
`tok`: count it in, and if it is a symbol record its class and position. -/
def check_cmd_body (tok : Tok) (st : CheckState) : CheckState :=
  let item_offset := st.item_offset + 1
  if tok = ['<'] then
    ⟨item_offset, st.symbol_cnt + 1, CMD_INPUT_REDIRECT, item_offset⟩
  else if tok = ['>'] then
    ⟨item_offset, st.symbol_cnt + 1, CMD_OUTPUT_REDIRECT, item_offset⟩
  else if tok = ['|'] then
    ⟨item_offset, st.symbol_cnt + 1, CMD_PIPELINE, item_offset⟩
  else
    ⟨item_offset, st.symbol_cnt, st.cmd_type, st.pos⟩

/-- The `for` loop of `check_cmd` over the entries before the NULL.  `none`
is the early `return CMD_INVALID` of line 141, taken as soon as a second
symbol is counted. -/
def check_cmd_loop : List Tok → CheckState → Option CheckState
  | [], st => some st
  | tok :: ptr, st =>
    let st1 := check_cmd_body tok st
    if st1.symbol_cnt > 1 then none else check_cmd_loop ptr st1

/-- The function `check_cmd`, returning the pair (command type, `*pos`). -/
def check_cmd (arg_vec : List Tok) : Int × Int :=
  match check_cmd_loop arg_vec ⟨-1, 0, CMD_NORMAL, -1⟩ with
  | none => (CMD_INVALID, -1)
  | some st =>
    if st.pos = 0 ∨ st.pos = st.item_offset then (CMD_INVALID, st.pos)
    else (st.cmd_type, st.pos)

/-! ## Processes: system calls, programs and traces -/

/-- The two ways `psh.c` opens a file: `O_RDONLY`, and
`O_WRONLY | O_CREAT | O_TRUNC` with mode `S_IRUSR|S_IWUSR|S_IRGRP|S_IROTH`. -/
inductive OpenHow where
  | rdonly
  | wronly_creat_trunc_0644
  deriving DecidableEq, Repr

/-- A system call whose `int` result the caller receives. -/
inductive Call where
  | fork
  | wait
  | chdir (path : Tok)
  | open_ (path : Option Tok) (how : OpenHow)
  | dup2 (oldfd newfd : Int)
  | close (fd : Int)
  deriving DecidableEq, Repr

inductive Signal where
  | SIGINT
  | SIGQUIT
  deriving DecidableEq, Repr

/-- The switch cases of the child branch of `exec_cmd`. -/
inductive Strategy where
  | normal
  | input_redirect
  | output_redirect
  | pipeline
  | invalid
  deriving DecidableEq, Repr

/-- An action with no result the code looks at. -/
inductive Act where
  | signal_dfl (sig : Signal)
  | perror (s : String)
  | fprintf_stderr (s : String)
  | printf (s : String)
  /-- Ghost event: the body of this switch case of `exec_cmd` was entered. -/
  | enter (c : Strategy)
  deriving DecidableEq, Repr

/-- What one process does, as a tree: the process makes a call and goes on
according to the value the system returns.  `ret` is the C function
returning to its caller; `waiting` is the parent still inside its `wait`
loop when the model stops unrolling it. -/
inductive Prog where
  | sys (c : Call) (k : Int → Prog)
  /-- The call `pipe(pfd)`: result, then `pfd[0]` and `pfd[1]`. -/
  | pipe (k : Int → Int → Int → Prog)
  /-- The call `execvp(file, argv)`; `k` runs only when the call returns. -/
  | execvp (file : Option Tok) (argv : List Tok) (k : Prog)
  | act (a : Act) (k : Prog)
  | exit (status : Int)
  | ret
  | waiting

/-- Sequential composition: `q` runs when `p` returns. -/
def Prog.seq : Prog → Prog → Prog
  | Prog.sys c k, q => Prog.sys c (fun r => (k r).seq q)
  | Prog.pipe k, q => Prog.pipe (fun r a b => (k r a b).seq q)
  | Prog.execvp f a k, q => Prog.execvp f a (k.seq q)
  | Prog.act a k, q => Prog.act a (k.seq q)
  | Prog.exit st, _ => Prog.exit st
  | Prog.ret, q => q
  | Prog.waiting, _ => Prog.waiting

/-- One entry of a trace: a call together with what the system answered. -/
inductive Event where
  | sys (c : Call) (r : Int)
  | pipe (r pfd0 pfd1 : Int)
  | execvp (file : Option Tok) (argv : List Tok) (r : Int)
  | act (a : Act)
  | exit (status : Int)
  deriving DecidableEq, Repr

/-- How the run of a process ends. -/
inductive Ctl where
  /-- The C function returned to its caller. -/
  | returned
  /-- The process called `exit(status)`. -/
  | exited (status : Int)
  /-- The call `execvp(file, argv)` succeeded: the image was replaced. -/
  | execed (file : Option Tok) (argv : List Tok)
  /-- The parent is still inside its `wait` loop. -/
  | waiting
  deriving DecidableEq, Repr

/-- Run a program against an oracle: the `i`-th value the system hands back
to this process is `o i` (`pipe` takes three values).  A call fails when
its value is `-1`; `execvp` returns only when it fails. -/
def run (o : Nat → Int) : Prog → Nat → List Event × Ctl
  | Prog.sys c k, i =>
    let r := run o (k (o i)) (i + 1)
    (Event.sys c (o i) :: r.1, r.2)
  | Prog.pipe k, i =>
    let r := run o (k (o i) (o (i + 1)) (o (i + 2))) (i + 3)
    (Event.pipe (o i) (o (i + 1)) (o (i + 2)) :: r.1, r.2)
  | Prog.execvp f a k, i =>
    if o i = -1 then
      let r := run o k (i + 1)
      (Event.execvp f a (o i) :: r.1, r.2)
    else
      ([Event.execvp f a (o i)], Ctl.execed f a)
  | Prog.act a k, i =>
    let r := run o k i
    (Event.act a :: r.1, r.2)
  | Prog.exit st, _ => ([Event.exit st], Ctl.exited st)
  | Prog.ret, _ => ([], Ctl.returned)
  | Prog.waiting, _ => ([], Ctl.waiting)

/-! ## Argument arrays with explicit NULL entries -/

/-- The array `arg_vec` that holds the sequence `seq` and its NULL. -/
def cvec (seq : List Tok) : List (Option Tok) :=
  seq.map some ++ [none]

/-- The read `arg_vec[i]`; an index outside the array (undefined in C) reads
as NULL. -/
def entry (arg_vec : List (Option Tok)) (i : Int) : Option Tok :=
  if i < 0 then none else (arg_vec.get? i.toNat).join

/-- The write `arg_vec[i] = NULL`; an index outside the array (undefined in
C) writes nothing. -/
def store_null (arg_vec : List (Option Tok)) (i : Int) : List (Option Tok) :=
  if i < 0 then arg_vec else arg_vec.set i.toNat none

/-- The argv that `execvp` reads at `&arg_vec[i]`: the entries from index
`i` up to the first NULL. -/
def argv_at (arg_vec : List (Option Tok)) (i : Int) : List Tok :=
  if i < 0 then [] else
    ((arg_vec.drop i.toNat).takeWhile (fun e => e.isSome)).filterMap id

/-! ## Execution strategies -/

/-- The two lines `perror(msg); exit(EXIT_FAILURE);`. -/
def fail (msg : String) : Prog :=
  Prog.act (Act.perror msg) (Prog.exit EXIT_FAILURE)

/-- The function `exec_normal`. -/
def exec_normal (arg_vec : List (Option Tok)) : Prog :=
  Prog.execvp (entry arg_vec 0) (argv_at arg_vec 0) (fail "execvp")

/-- The function `exec_input_redirect`. -/
def exec_input_redirect (arg_vec : List (Option Tok)) (pos : Int) : Prog :=
  let filename := entry arg_vec (pos + 1)
  let arg_vec := store_null arg_vec pos
  Prog.sys (Call.open_ filename OpenHow.rdonly) fun fdin =>
    if fdin = -1 then fail "open" else
    Prog.sys (Call.dup2 fdin STDIN_FILENO) fun r =>
      if r = -1 then fail "dup2" else
      Prog.sys (Call.close fdin) fun r =>
        if r = -1 then fail "close" else
        Prog.execvp (entry arg_vec 0) (argv_at arg_vec 0) (fail "execvp")

/-- The function `exec_output_redirect`. -/
def exec_output_redirect (arg_vec : List (Option Tok)) (pos : Int) : Prog :=
  let filename := entry arg_vec (pos + 1)
  let arg_vec := store_null arg_vec pos
  Prog.sys (Call.open_ filename OpenHow.wronly_creat_trunc_0644) fun fdout =>
    if fdout = -1 then fail "open" else
    Prog.sys (Call.dup2 fdout STDOUT_FILENO) fun r =>
      if r = -1 then fail "dup2" else
      Prog.sys (Call.close fdout) fun r =>
        if r = -1 then fail "close" else
        Prog.execvp (entry arg_vec 0) (argv_at arg_vec 0) (fail "execvp")

/-- The `case 0` of the first `fork` of `exec_pipeline` (lines 348-365). -/
def pipeline_first_child (arg_vec : List (Option Tok)) (pfd0 pfd1 : Int) : Prog :=
  Prog.sys (Call.close pfd0) fun r =>
    if r = -1 then fail "close" else
    let run_it := Prog.execvp (entry arg_vec 0) (argv_at arg_vec 0) (fail "execvp")
    if pfd1 ≠ STDOUT_FILENO then
      Prog.sys (Call.dup2 pfd1 STDOUT_FILENO) fun r =>
        if r = -1 then fail "dup2" else
        Prog.sys (Call.close pfd1) fun r =>
          if r = -1 then fail "close" else run_it
    else run_it

/-- The `case 0` of the second `fork` of `exec_pipeline` (lines 376-393);
`arg_vec2` is `&arg_vec[pos+1]`. -/
def pipeline_second_child (arg_vec : List (Option Tok)) (pos pfd0 pfd1 : Int) : Prog :=
  Prog.sys (Call.close pfd1) fun r =>
    if r = -1 then fail "close" else
    let run_it :=
      Prog.execvp (entry arg_vec (pos + 1)) (argv_at arg_vec (pos + 1)) (fail "execvp")
    if pfd0 ≠ STDIN_FILENO then
      Prog.sys (Call.dup2 pfd0 STDIN_FILENO) fun r =>
        if r = -1 then fail "dup2" else
        Prog.sys (Call.close pfd0) fun r =>
          if r = -1 then fail "close" else run_it
    else run_it

/-- The end of `exec_pipeline` in the process that forked twice
(lines 398-415). -/
def pipeline_parent (pfd0 pfd1 : Int) : Prog :=
  Prog.sys (Call.close pfd0) fun r =>
    if r = -1 then fail "close" else
    Prog.sys (Call.close pfd1) fun r =>
      if r = -1 then fail "close" else
      Prog.sys Call.wait fun r =>
        if r = -1 then fail "wait" else
        Prog.sys Call.wait fun r =>
          if r = -1 then fail "wait" else
          Prog.exit EXIT_SUCCESS

/-- The function `exec_pipeline`, as seen by any of the three processes it
runs in: the value each `fork` returns selects the process. -/
def exec_pipeline (arg_vec : List (Option Tok)) (pos : Int) : Prog :=
  let arg_vec := store_null arg_vec pos
  Prog.pipe fun r pfd0 pfd1 =>
    if r = -1 then fail "pipe" else
    Prog.sys Call.fork fun pid1 =>
      if pid1 = -1 then fail "fork"
      else if pid1 = 0 then pipeline_first_child arg_vec pfd0 pfd1
      else
        Prog.sys Call.fork fun pid2 =>
          if pid2 = -1 then fail "fork"
          else if pid2 = 0 then pipeline_second_child arg_vec pos pfd0 pfd1
          else pipeline_parent pfd0 pfd1

/-! ## Process supervisor: `exec_cmd` -/

/-- The loop `while (wait(&status) != pid) ;`, unrolled `spins` times. -/
def wait_loop (pid : Int) : Nat → Prog
  | 0 => Prog.waiting
  | spins + 1 =>
    Prog.sys Call.wait fun r => if r ≠ pid then wait_loop pid spins else Prog.ret

/-- The body of each case of the inner `switch` of `exec_cmd`, with the
ghost event that records its entry. -/
def case_body (arg_vec : List (Option Tok)) (symbol_pos : Int) : Strategy → Prog
  | Strategy.normal =>
    Prog.act (Act.enter Strategy.normal) (exec_normal arg_vec)
  | Strategy.input_redirect =>
    Prog.act (Act.enter Strategy.input_redirect) (exec_input_redirect arg_vec symbol_pos)
  | Strategy.output_redirect =>
    Prog.act (Act.enter Strategy.output_redirect) (exec_output_redirect arg_vec symbol_pos)
  | Strategy.pipeline =>
    Prog.act (Act.enter Strategy.pipeline) (exec_pipeline arg_vec symbol_pos)
  | Strategy.invalid =>
    Prog.act (Act.enter Strategy.invalid)
      (Prog.act (Act.fprintf_stderr "Invalid command syntax!\n") (Prog.exit EXIT_FAILURE))

/-- The array a case body would leave behind if it returned: the three
functions that split the sequence have stored NULL at `symbol_pos`. -/
def case_leaves (arg_vec : List (Option Tok)) (symbol_pos : Int) :
    Strategy → List (Option Tok)
  | Strategy.normal => arg_vec
  | Strategy.input_redirect => store_null arg_vec symbol_pos
  | Strategy.output_redirect => store_null arg_vec symbol_pos
  | Strategy.pipeline => store_null arg_vec symbol_pos
  | Strategy.invalid => arg_vec

/-- Run the case bodies in the order given: no case of the inner `switch`
ends in `break`, so a body that returned would fall into the next one. -/
def fall_through (arg_vec : List (Option Tok)) (symbol_pos : Int) : List Strategy → Prog
  | [] => Prog.ret
  | c :: cs =>
    (case_body arg_vec symbol_pos c).seq
      (fall_through (case_leaves arg_vec symbol_pos c) symbol_pos cs)

/-- The inner `switch (cmd_type)` of `exec_cmd` (lines 443-457): control
enters at the matching label and runs down from there; `default: break`
leaves the switch. -/
def switch_cmd_type (arg_vec : List (Option Tok)) (cmd_type symbol_pos : Int) : Prog :=
  if cmd_type = CMD_NORMAL then
    fall_through arg_vec symbol_pos
      [Strategy.normal, Strategy.input_redirect, Strategy.output_redirect,
        Strategy.pipeline, Strategy.invalid]
  else if cmd_type = CMD_INPUT_REDIRECT then
    fall_through arg_vec symbol_pos
      [Strategy.input_redirect, Strategy.output_redirect, Strategy.pipeline, Strategy.invalid]
  else if cmd_type = CMD_OUTPUT_REDIRECT then
    fall_through arg_vec symbol_pos
      [Strategy.output_redirect, Strategy.pipeline, Strategy.invalid]
  else if cmd_type = CMD_PIPELINE then
    fall_through arg_vec symbol_pos [Strategy.pipeline, Strategy.invalid]
  else if cmd_type = CMD_INVALID then
    fall_through arg_vec symbol_pos [Strategy.invalid]
  else
    Prog.ret

/-- The `case 0` of `exec_cmd` up to the end of the inner `switch`
(lines 437-457). -/
def exec_cmd_child (arg_vec : List Tok) : Prog :=
  Prog.act (Act.signal_dfl Signal.SIGINT)
    (Prog.act (Act.signal_dfl Signal.SIGQUIT)
      (switch_cmd_type (cvec arg_vec) (check_cmd arg_vec).1 (check_cmd arg_vec).2))

/-- The function `exec_cmd`, as seen by either process.  `case 0` of the
outer `switch` has no `break`: a child that left the inner `switch` would go
on into the `wait` loop of `default`. -/
def exec_cmd (spins : Nat) (arg_vec : List Tok) : Prog :=
  Prog.sys Call.fork fun pid =>
    if pid = -1 then fail "fork"
    else if pid = 0 then (exec_cmd_child arg_vec).seq (wait_loop pid spins)
    else wait_loop pid spins

/-! ## Dispatcher: `builtin_cmd` and `run_cmd` -/

/-- The function `builtin_cmd`: what it does, and the value it returns when
it returns.  It is called with `arg_vec[0]` not NULL. -/
def builtin_cmd (arg_vec : List Tok) : Prog × Int :=
  if arg_vec.head? = some ['c', 'd'] then
    (match arg_vec.get? 1, arg_vec.get? 2 with
      | some dir, none =>
        Prog.sys (Call.chdir dir) fun r =>
          if r = -1 then Prog.act (Act.perror "cd") Prog.ret else Prog.ret
      | _, _ => Prog.act (Act.printf "Usage: cd [directory]\n") Prog.ret,
     0)
  else if arg_vec.head? = some ['e', 'x', 'i', 't'] then
    (Prog.exit EXIT_SUCCESS, 0)
  else
    (Prog.ret, -1)

/-- The function `run_cmd` of the source (that name is a Lean keyword). -/
def run_command (spins : Nat) (arg_vec : List Tok) : Prog :=
  if arg_vec.head? = none then
    Prog.ret
  else
    let b := builtin_cmd arg_vec
    b.1.seq (if b.2 = -1 then exec_cmd spins arg_vec else Prog.ret)

/-! ## Descriptor table -/

/-- What an open descriptor refers to. -/
inductive File where
  /-- A file this process opened by `open(path, how)`. -/
  | opened (path : Option Tok) (how : OpenHow)
  /-- Something the process inherited, such as the terminal. -/
  | inherited (n : Nat)
  /-- An end of a pipe. -/
  | pipe_end (reading : Bool)
  deriving DecidableEq, Repr

/-- The descriptor table of a process: `none` is a closed slot. -/
abbrev FdTable := Int → Option File

def FdTable.set (t : FdTable) (fd : Int) (f : Option File) : FdTable :=
  fun n => if n = fd then f else t n

/-- The effect of one traced call on the descriptor table (POSIX): a failed
call changes nothing; `open` binds the descriptor it returns; `dup2(a, b)`
with `a = b` does nothing and otherwise makes `b` refer to what `a` refers
to; `close` frees the slot. -/
def FdTable.step (t : FdTable) : Event → FdTable
  | Event.sys (Call.open_ path how) r =>
    if r = -1 then t else t.set r (some (File.opened path how))
  | Event.sys (Call.dup2 a b) r =>
    if r = -1 then t else if a = b then t else t.set b (t a)
  | Event.sys (Call.close fd) r =>
    if r = -1 then t else t.set fd none
  | Event.pipe r pfd0 pfd1 =>
    if r = -1 then t
    else (t.set pfd0 (some (File.pipe_end true))).set pfd1 (some (File.pipe_end false))
  | _ => t

/-- The descriptor table after a trace. -/
def FdTable.after (t : FdTable) (trace : List Event) : FdTable :=
  trace.foldl FdTable.step t

/-! ## Observations on runs -/

/-- The run ended in a successful `execvp` or in an `exit`. -/
def Ctl.ended : Ctl → Bool
  | Ctl.execed _ _ => true
  | Ctl.exited _ => true
  | Ctl.returned => false
  | Ctl.waiting => false

/-- The switch cases of `exec_cmd` a trace entered, in order. -/
def entered : List Event → List Strategy
  | [] => []
  | Event.act (Act.enter c) :: es => c :: entered es
  | _ :: es => entered es

/-- The label of each case of the inner `switch` of `exec_cmd`. -/
def Strategy.cmd_type : Strategy → Int
  | Strategy.normal => CMD_NORMAL
  | Strategy.input_redirect => CMD_INPUT_REDIRECT
  | Strategy.output_redirect => CMD_OUTPUT_REDIRECT
  | Strategy.pipeline => CMD_PIPELINE
  | Strategy.invalid => CMD_INVALID

/-- Every path of the program ends in `exit` or in `execvp` (followed, if
`execvp` returns, by a path that ends so): no path reaches the end of the C
function, none stays in a loop, and none enters a switch case. -/
def Prog.final : Prog → Prop
  | Prog.sys _ k => ∀ r, (k r).final
  | Prog.pipe k => ∀ r a b, (k r a b).final
  | Prog.execvp _ _ k => k.final
  | Prog.act a k => (∀ c, a ≠ Act.enter c) ∧ k.final
  | Prog.exit _ => True
  | Prog.ret => False
  | Prog.waiting => False

/-- The trace has an event of the call `fork`. -/
def forks (trace : List Event) : Prop :=
  ∃ r, Event.sys Call.fork r ∈ trace

/-- A descriptor table with the terminal on 0 and 2 and standard output
closed, as when the shell is started with `>&-`. -/
def stdout_closed : FdTable :=
  fun fd => if fd = 0 ∨ fd = 2 then some (File.inherited 0) else none

/-- A descriptor table with the terminal on 1 and 2 and standard input
closed. -/
def stdin_closed : FdTable :=
  fun fd => if fd = 1 ∨ fd = 2 then some (File.inherited 0) else none

/-- An oracle that answers the listed values, then 0. -/
def answers (l : List Int) : Nat → Int :=
  fun n => l.getD n 0

/-! ## Concrete inputs used below -/

/-- In the spec's words: the non-empty pieces obtained by splitting the line
at every single space character, in order. -/
def nonEmptyPieces (line : List Char) : List Tok :=
  (line.splitOn DELIM).filter (fun t => t ≠ [])

/-- In the spec's words: `Runs line runs` says that `runs` lists, in order,
the maximal runs of non-space characters of `line`.  The line is some
spaces, then a non-empty space-free run that is followed by a space or by
the end of the line, and so on; a line of spaces only has no run. -/
inductive Runs : List Char → List Tok → Prop where
  | blank (n : Nat) : Runs (List.replicate n DELIM) []
  | run (n : Nat) (t rest : List Char) (runs : List Tok) :
      t ≠ [] → DELIM ∉ t → (rest = [] ∨ rest.head? = some DELIM) →
      Runs rest runs → Runs (List.replicate n DELIM ++ t ++ rest) (t :: runs)

/-! ## Specification side of the classifier -/

/-- In the spec's words: a control symbol is an element exactly equal to
`<`, `>` or `|`. -/
def isControl (t : Tok) : Bool :=
  t = ['<'] || t = ['>'] || t = ['|']

/-- In the spec's words: the type matching a control symbol. -/
def symbolType (t : Tok) : Int :=
  if t = ['<'] then CMD_INPUT_REDIRECT
  else if t = ['>'] then CMD_OUTPUT_REDIRECT
  else CMD_PIPELINE

/-! ## Specification side of the execution strategies -/

/-- In the spec's words: open the file, duplicate that descriptor onto the
standard slot, close the original descriptor, then behave as Normal with
`argv`; each failure is reported and ends the child. -/
def redirect_plan (file : Tok) (how : OpenHow) (slot : Int) (argv : List Tok) : Prog :=
  Prog.sys (Call.open_ (some file) how) fun fd =>
    if fd = -1 then fail "open" else
    Prog.sys (Call.dup2 fd slot) fun r =>
      if r = -1 then fail "dup2" else
      Prog.sys (Call.close fd) fun r =>
        if r = -1 then fail "close" else
        Prog.execvp argv.head? argv (fail "execvp")

/-- In the spec's words: a child of the pipeline closes the end of the
channel it does not use, duplicates the end it uses onto its standard slot
(if it is not already that slot) and closes the original descriptor, then
executes `argv` as Normal. -/
def pipe_child_plan (unused used slot : Int) (argv : List Tok) : Prog :=
  Prog.sys (Call.close unused) fun r =>
    if r = -1 then fail "close" else
    if used ≠ slot then
      Prog.sys (Call.dup2 used slot) fun r =>
        if r = -1 then fail "dup2" else
        Prog.sys (Call.close used) fun r =>
          if r = -1 then fail "close" else
          Prog.execvp argv.head? argv (fail "execvp")
    else Prog.execvp argv.head? argv (fail "execvp")

/-- In the spec's words: create the channel, create the first child for
`left` and the second child for `right`; the orchestrating process closes
both ends and waits twice before it terminates with success. -/
def pipeline_plan (left right : List Tok) : Prog :=
  Prog.pipe fun r pfd0 pfd1 =>
    if r = -1 then fail "pipe" else
    Prog.sys Call.fork fun pid1 =>
      if pid1 = -1 then fail "fork"
      else if pid1 = 0 then pipe_child_plan pfd0 pfd1 STDOUT_FILENO left
      else
        Prog.sys Call.fork fun pid2 =>
          if pid2 = -1 then fail "fork"
          else if pid2 = 0 then pipe_child_plan pfd1 pfd0 STDIN_FILENO right
          else pipeline_parent pfd0 pfd1

/-- The skeleton of a pipeline: create the channel and fork twice, with
any three programs for the first child, the second child and the process
that forked. -/
def fork_twice (first second parent : Int → Int → Prog) : Prog :=
  Prog.pipe fun r pfd0 pfd1 =>
    if r = -1 then fail "pipe" else
    Prog.sys Call.fork fun pid1 =>
      if pid1 = -1 then fail "fork"
      else if pid1 = 0 then first pfd0 pfd1
      else
        Prog.sys Call.fork fun pid2 =>
          if pid2 = -1 then fail "fork"
          else if pid2 = 0 then second pfd0 pfd1
          else parent pfd0 pfd1

/-! ## Lemmas on the tokenizer -/

theorem handle_input_loop_null (fuel : Nat) (arg_vec : List Tok) :
    handle_input_loop (fuel + 1) none arg_vec = Parsed.args arg_vec := by
  simp [handle_input_loop, strsep]

theorem dropWhile_delim_cons {s rest : List Char} {c : Char}
    (h : s.dropWhile (fun c => c != DELIM) = c :: rest) :
    c = DELIM ∧ s = s.takeWhile (fun c => c != DELIM) ++ DELIM :: rest := by
  have hc : c = DELIM := by
    have h1 := List.head_dropWhile_not (fun c => c != DELIM) s (by simp [h])
    simpa [h] using h1
  refine ⟨hc, ?_⟩
  have h2 := List.takeWhile_append_dropWhile (fun c => c != DELIM) s
  rw [h, hc] at h2
  exact h2.symm

theorem splitOn_no_delim {s : List Char}
    (h : s.dropWhile (fun c => c != DELIM) = []) : s.splitOn DELIM = [s] := by
  apply List.splitOnP_eq_single
  intro x hx
  have := List.dropWhile_eq_nil_iff.mp h x hx
  simpa using this

theorem splitOn_delim {s rest : List Char} {c : Char}
    (h : s.dropWhile (fun c => c != DELIM) = c :: rest) :
    s.splitOn DELIM = s.takeWhile (fun c => c != DELIM) :: rest.splitOn DELIM := by
  obtain ⟨_, hs⟩ := dropWhile_delim_cons h
  conv_lhs => rw [hs]
  apply List.splitOnP_first
  · intro x hx
    have := List.mem_takeWhile_imp hx
    simpa using this
  · simp

/-- With enough fuel the loop stops by itself: it appends the non-empty
pieces of the rest of the line until `arg_vec` holds `MAX_ARG_NUM` entries. -/
theorem handle_input_loop_eq (fuel : Nat) (s : List Char) (arg_vec : List Tok)
    (hfuel : s.length + 2 ≤ fuel) (hnum : arg_vec.length ≤ MAX_ARG_NUM) :
    handle_input_loop fuel (some s) arg_vec =
      Parsed.args (arg_vec ++ (nonEmptyPieces s).take (MAX_ARG_NUM - arg_vec.length)) := by
  induction fuel generalizing s arg_vec with
  | zero => omega
  | succ fuel ih =>
    cases hd : s.dropWhile (fun c => c != DELIM) with
    | nil =>
      have hsplit := splitOn_no_delim hd
      obtain ⟨k, rfl⟩ : ∃ k, fuel = k + 1 := ⟨fuel - 1, by omega⟩
      by_cases hlt : arg_vec.length < MAX_ARG_NUM
      · by_cases hs : s = []
        · simp [handle_input_loop, strsep, hd, hlt, hs, handle_input_loop_null,
            nonEmptyPieces]
        · have hpos : MAX_ARG_NUM - arg_vec.length = (MAX_ARG_NUM - arg_vec.length - 1) + 1 := by
            omega
          simp only [handle_input_loop, strsep, hd, hlt, hs, handle_input_loop_null,
            nonEmptyPieces, hsplit]
          rw [hpos]
          simp [hs]
      · have h0 : MAX_ARG_NUM - arg_vec.length = 0 := by omega
        simp [handle_input_loop, strsep, hd, hlt, h0]
    | cons c rest =>
      have hsplit := splitOn_delim hd
      obtain ⟨_, hs⟩ := dropWhile_delim_cons hd
      have hlen : rest.length + 2 ≤ fuel := by
        have := congrArg List.length hs
        simp at this
        omega
      by_cases hlt : arg_vec.length < MAX_ARG_NUM
      · by_cases ht : s.takeWhile (fun c => c != DELIM) = []
        · simp only [handle_input_loop, strsep, hd, hlt, ht, nonEmptyPieces, hsplit]
          rw [ih rest arg_vec hlen hnum]
          simp [nonEmptyPieces]
        · have hpos : MAX_ARG_NUM - arg_vec.length =
              (MAX_ARG_NUM - (arg_vec ++ [s.takeWhile (fun c => c != DELIM)]).length) + 1 := by
            simp; omega
          simp only [handle_input_loop, strsep, hd, hlt, ht, nonEmptyPieces, hsplit]
          rw [ih rest _ hlen (by simp; omega), hpos]
          simp [nonEmptyPieces, ht]
      · have h0 : MAX_ARG_NUM - arg_vec.length = 0 := by omega
        simp [handle_input_loop, strsep, hd, hlt, h0]

/-- The function `handle_input` on a line that fits the buffer. -/
theorem handle_input_eq (line : List Char) (hlen : line.length + 2 ≤ MAX_ARG_LEN) :
    handle_input line = Parsed.args ((nonEmptyPieces line).take MAX_ARG_NUM) := by
  have h := handle_input_loop_eq (line.length + 2) line [] (Nat.le_refl _) (by simp)
  simp only [handle_input]
  rw [if_neg (by omega), h]
  simp

/-- The function `handle_input` on a line that does not fit the buffer. -/
theorem handle_input_long (line : List Char) (hlen : MAX_ARG_LEN < line.length + 2) :
    handle_input line = Parsed.exit_failure := by
  simp only [handle_input]
  rw [if_pos (by omega)]

theorem nonEmptyPieces_nil : nonEmptyPieces [] = [] := by
  simp [nonEmptyPieces]

theorem nonEmptyPieces_delim_cons (s : List Char) :
    nonEmptyPieces (DELIM :: s) = nonEmptyPieces s := by
  simp [nonEmptyPieces, List.splitOn, List.splitOnP_cons]

theorem nonEmptyPieces_replicate_append (n : Nat) (s : List Char) :
    nonEmptyPieces (List.replicate n DELIM ++ s) = nonEmptyPieces s := by
  induction n with
  | zero => simp
  | succ n ih => rw [List.replicate_succ, List.cons_append, nonEmptyPieces_delim_cons, ih]

theorem nonEmptyPieces_single {t : List Char} (hne : t ≠ []) (hd : DELIM ∉ t) :
    nonEmptyPieces t = [t] := by
  have h : t.splitOn DELIM = [t] := by
    apply List.splitOnP_eq_single
    intro x hx hp
    have : x = DELIM := by simpa using hp
    exact hd (this ▸ hx)
  simp [nonEmptyPieces, h, hne]

theorem nonEmptyPieces_run_cons {t : List Char} (hne : t ≠ []) (hd : DELIM ∉ t)
    (r : List Char) : nonEmptyPieces (t ++ DELIM :: r) = t :: nonEmptyPieces r := by
  have h : (t ++ DELIM :: r).splitOn DELIM = t :: r.splitOn DELIM := by
    apply List.splitOnP_first
    · intro x hx hp
      have : x = DELIM := by simpa using hp
      exact hd (this ▸ hx)
    · simp
  simp [nonEmptyPieces, h, hne]

/-- The two specifications of the tokens agree: the maximal non-space runs
are the non-empty pieces between single spaces. -/
theorem Runs.eq_nonEmptyPieces {line : List Char} {runs : List Tok}
    (h : Runs line runs) : nonEmptyPieces line = runs := by
  induction h with
  | blank n =>
    have := nonEmptyPieces_replicate_append n []
    rw [List.append_nil] at this
    rw [this, nonEmptyPieces_nil]
  | run n t rest runs hne hd hrest _ ih =>
    rw [List.append_assoc, nonEmptyPieces_replicate_append]
    rcases hrest with hnil | hhead
    · subst hnil
      rw [nonEmptyPieces_nil] at ih
      rw [List.append_nil, nonEmptyPieces_single hne hd, ← ih]
    · cases rest with
      | nil => simp at hhead
      | cons c r =>
        have hc : c = DELIM := by simpa using hhead
        subst hc
        rw [nonEmptyPieces_run_cons hne hd, ← ih, nonEmptyPieces_delim_cons]

theorem nonEmptyPieces_blank (line : List Char) (h : ∀ c ∈ line, c = DELIM) :
    nonEmptyPieces line = [] := by
  induction line with
  | nil => exact nonEmptyPieces_nil
  | cons c l ih =>
    have hc : c = DELIM := h c (List.mem_cons_self c l)
    subst hc
    rw [nonEmptyPieces_delim_cons]
    exact ih (fun d hd => h d (List.mem_cons_of_mem _ hd))

/-- Every line has its list of maximal runs, and it is the list of its
non-empty pieces. -/
theorem runs_total (line : List Char) : Runs line (nonEmptyPieces line) := by
  generalize hn : line.length = n
  induction n using Nat.strong_induction_on generalizing line with
  | _ n ih =>
    have hsplit := List.takeWhile_append_dropWhile (fun c => c == DELIM) line
    have hsp : line.takeWhile (fun c => c == DELIM) =
        List.replicate (line.takeWhile (fun c => c == DELIM)).length DELIM := by
      rw [List.eq_replicate_iff]
      refine ⟨rfl, ?_⟩
      intro c hc
      have := List.mem_takeWhile_imp hc
      simpa using this
    cases hr : line.dropWhile (fun c => c == DELIM) with
    | nil =>
      rw [hr, List.append_nil] at hsplit
      have hblank : ∀ c ∈ line, c = DELIM := by
        intro c hc
        rw [← hsplit, hsp] at hc
        exact (List.mem_replicate.mp hc).2
      rw [nonEmptyPieces_blank line hblank]
      rw [← hsplit, hsp]
      exact Runs.blank _
    | cons c r =>
      have hc : c ≠ DELIM := by
        have h1 := List.head_dropWhile_not (fun c => c == DELIM) line (by simp [hr])
        simpa [hr] using h1
      have ht := List.takeWhile_append_dropWhile (fun c => c != DELIM) (c :: r)
      have htne : (c :: r).takeWhile (fun c => c != DELIM) ≠ [] := by
        simp [List.takeWhile_cons, hc]
      have htd : DELIM ∉ (c :: r).takeWhile (fun c => c != DELIM) := by
        intro hmem
        have := List.mem_takeWhile_imp hmem
        simp at this
      have hrest : (c :: r).dropWhile (fun c => c != DELIM) = [] ∨
          ((c :: r).dropWhile (fun c => c != DELIM)).head? = some DELIM := by
        cases hd : (c :: r).dropWhile (fun c => c != DELIM) with
        | nil => exact Or.inl rfl
        | cons d rest =>
          right
          rw [(dropWhile_delim_cons hd).1]
          rfl
      have hlen : ((c :: r).dropWhile (fun c => c != DELIM)).length < n := by
        have h1 := congrArg List.length hsplit
        have h2 := congrArg List.length ht
        have h3 := List.length_pos.mpr htne
        rw [hr] at h1
        simp only [List.length_append] at h1 h2
        omega
      have hrec := ih _ hlen ((c :: r).dropWhile (fun c => c != DELIM)) rfl
      have hrun := Runs.run (line.takeWhile (fun c => c == DELIM)).length
        ((c :: r).takeWhile (fun c => c != DELIM))
        ((c :: r).dropWhile (fun c => c != DELIM)) _ htne htd hrest hrec
      have hline : List.replicate (line.takeWhile (fun c => c == DELIM)).length DELIM ++
          (c :: r).takeWhile (fun c => c != DELIM) ++
          (c :: r).dropWhile (fun c => c != DELIM) = line := by
        rw [List.append_assoc, ht, ← hsp, ← hr, hsplit]
      rw [hline] at hrun
      have heq := hrun.eq_nonEmptyPieces
      rw [heq]
      exact hrun

/-! ## Lemmas on the classifier -/

theorem check_cmd_body_control {s : Tok} (hs : isControl s = true) (st : CheckState) :
    check_cmd_body s st =
      ⟨st.item_offset + 1, st.symbol_cnt + 1, symbolType s, st.item_offset + 1⟩ := by
  simp only [isControl, Bool.or_eq_true, decide_eq_true_eq] at hs
  rcases hs with (h | h) | h <;> subst h <;> simp [check_cmd_body, symbolType]

theorem check_cmd_body_plain {t : Tok} (ht : isControl t = false) (st : CheckState) :
    check_cmd_body t st = ⟨st.item_offset + 1, st.symbol_cnt, st.cmd_type, st.pos⟩ := by
  simp only [isControl, Bool.or_eq_false_iff, decide_eq_false_iff_not] at ht
  simp [check_cmd_body, ht.1.1, ht.1.2, ht.2]

/-- Over entries that hold no symbol the loop only counts. -/
theorem check_cmd_loop_plain (l : List Tok) (st : CheckState)
    (hl : ∀ t ∈ l, isControl t = false) (hcnt : st.symbol_cnt ≤ 1) :
    check_cmd_loop l st =
      some ⟨st.item_offset + l.length, st.symbol_cnt, st.cmd_type, st.pos⟩ := by
  induction l generalizing st with
  | nil => simp [check_cmd_loop]
  | cons t l ih =>
    have ht := hl t (List.mem_cons_self t l)
    have hrest : ∀ u ∈ l, isControl u = false := fun u hu => hl u (List.mem_cons_of_mem t hu)
    simp only [check_cmd_loop, check_cmd_body_plain ht]
    rw [if_neg (by simpa using hcnt),
      ih ⟨st.item_offset + 1, st.symbol_cnt, st.cmd_type, st.pos⟩ hrest hcnt]
    simp only [List.length_cons, Nat.cast_add, Nat.cast_one]
    congr 2
    omega

/-- Once one symbol is counted, a further symbol makes the loop return
early. -/
theorem check_cmd_loop_second (l : List Tok) (st : CheckState)
    (hl : ∃ t ∈ l, isControl t = true) (hcnt : st.symbol_cnt = 1) :
    check_cmd_loop l st = none := by
  induction l generalizing st with
  | nil => simp at hl
  | cons t l ih =>
    by_cases ht : isControl t = true
    · simp [check_cmd_loop, check_cmd_body_control ht, hcnt]
    · have ht0 : isControl t = false := by simpa using ht
      have hrest : ∃ u ∈ l, isControl u = true := by
        obtain ⟨u, hu, hc⟩ := hl
        rcases List.mem_cons.mp hu with h | h
        · subst h
          exact absurd hc ht
        · exact ⟨u, h, hc⟩
      simp only [check_cmd_loop, check_cmd_body_plain ht0]
      rw [if_neg (by simp [hcnt])]
      exact ih _ hrest hcnt

/-- Up to and including the first symbol the loop counts the entries and
records that symbol. -/
theorem check_cmd_loop_first (a : List Tok) (s : Tok) (b : List Tok) (st : CheckState)
    (ha : ∀ t ∈ a, isControl t = false) (hs : isControl s = true)
    (hcnt : st.symbol_cnt = 0) :
    check_cmd_loop (a ++ s :: b) st =
      check_cmd_loop b
        ⟨st.item_offset + a.length + 1, 1, symbolType s, st.item_offset + a.length + 1⟩ := by
  induction a generalizing st with
  | nil => simp [check_cmd_loop, check_cmd_body_control hs, hcnt]
  | cons t a ih =>
    have ht := ha t (List.mem_cons_self t a)
    have hrest : ∀ u ∈ a, isControl u = false := fun u hu => ha u (List.mem_cons_of_mem t hu)
    simp only [List.cons_append, check_cmd_loop, check_cmd_body_plain ht]
    rw [if_neg (by simp [hcnt])]
    have h := ih ⟨st.item_offset + 1, st.symbol_cnt, st.cmd_type, st.pos⟩ hrest hcnt
    have e : st.item_offset + ((t :: a).length : Int) + 1 =
        st.item_offset + 1 + (a.length : Int) + 1 := by
      simp only [List.length_cons, Nat.cast_add, Nat.cast_one]
      omega
    rw [e]
    exact h

/-- The function `check_cmd` on a sequence without symbols. -/
theorem check_cmd_plain (l : List Tok) (hl : ∀ t ∈ l, isControl t = false) :
    check_cmd l = if l = [] then (CMD_INVALID, -1) else (CMD_NORMAL, -1) := by
  simp only [check_cmd]
  rw [check_cmd_loop_plain l _ hl (by decide)]
  cases l with
  | nil => simp
  | cons t l =>
    simp only [List.length_cons, Nat.cast_add, Nat.cast_one]
    rw [if_neg (by omega)]
    simp

/-- The function `check_cmd` on a sequence split at its first symbol. -/
theorem check_cmd_split (a : List Tok) (s : Tok) (b : List Tok)
    (ha : ∀ t ∈ a, isControl t = false) (hs : isControl s = true) :
    check_cmd (a ++ s :: b) =
      if ∃ t ∈ b, isControl t = true then (CMD_INVALID, -1)
      else if a = [] ∨ b = [] then (CMD_INVALID, (a.length : Int))
      else (symbolType s, (a.length : Int)) := by
  simp only [check_cmd]
  rw [check_cmd_loop_first a s b _ ha hs rfl]
  by_cases hb : ∃ t ∈ b, isControl t = true
  · rw [check_cmd_loop_second b _ hb rfl, if_pos hb]
  · have hb0 : ∀ t ∈ b, isControl t = false := by
      intro t ht
      by_contra hc
      exact hb ⟨t, ht, by simpa using hc⟩
    rw [check_cmd_loop_plain b _ hb0 (by simp), if_neg hb]
    have e : (-1 : Int) + (a.length : Int) + 1 = (a.length : Int) := by omega
    simp only [e]
    by_cases hab : a = [] ∨ b = []
    · rw [if_pos hab, if_pos]
      rcases hab with h | h
      · left; simp [h]
      · right; simp [h]
    · rw [if_neg hab, if_neg]
      push_neg at hab
      have h1 : 0 < a.length := List.length_pos.mpr hab.1
      have h2 : 0 < b.length := List.length_pos.mpr hab.2
      omega

/-- A sequence that holds a symbol splits at the first one. -/
theorem split_at_first_control (l : List Tok) (h : ∃ t ∈ l, isControl t = true) :
    ∃ a s b, l = a ++ s :: b ∧ (∀ t ∈ a, isControl t = false) ∧ isControl s = true := by
  induction l with
  | nil => simp at h
  | cons t l ih =>
    by_cases ht : isControl t = true
    · exact ⟨[], t, l, rfl, by simp, ht⟩
    · have ht0 : isControl t = false := by simpa using ht
      have hrest : ∃ u ∈ l, isControl u = true := by
        obtain ⟨u, hu, hc⟩ := h
        rcases List.mem_cons.mp hu with h1 | h1
        · subst h1
          exact absurd hc ht
        · exact ⟨u, h1, hc⟩
      obtain ⟨a, s, b, hl, ha, hs⟩ := ih hrest
      refine ⟨t :: a, s, b, by simp [hl], ?_, hs⟩
      intro u hu
      rcases List.mem_cons.mp hu with h1 | h1
      · subst h1
        exact ht0
      · exact ha u h1

/-- A sequence that `check_cmd` classifies as a redirect or a pipeline is a
non-empty symbol-free part, the symbol of that class at `pos`, and another
non-empty symbol-free part. -/
theorem check_cmd_shape (seq : List Tok) (ty pos : Int) (h : check_cmd seq = (ty, pos))
    (hty : ty = CMD_INPUT_REDIRECT ∨ ty = CMD_OUTPUT_REDIRECT ∨ ty = CMD_PIPELINE) :
    ∃ a s b, seq = a ++ s :: b ∧ (∀ t ∈ a, isControl t = false) ∧
      (∀ t ∈ b, isControl t = false) ∧ isControl s = true ∧ symbolType s = ty ∧
      a ≠ [] ∧ b ≠ [] ∧ pos = (a.length : Int) := by
  have hne : ty ≠ CMD_INVALID ∧ ty ≠ CMD_NORMAL := by
    rcases hty with h1 | h1 | h1 <;> subst h1 <;> decide
  by_cases hsym : ∃ t ∈ seq, isControl t = true
  · obtain ⟨a, s, b, hl, ha, hs⟩ := split_at_first_control seq hsym
    subst hl
    rw [check_cmd_split a s b ha hs] at h
    by_cases hb : ∃ t ∈ b, isControl t = true
    · rw [if_pos hb] at h
      exact absurd (congrArg Prod.fst h).symm hne.1
    · rw [if_neg hb] at h
      by_cases hab : a = [] ∨ b = []
      · rw [if_pos hab] at h
        exact absurd (congrArg Prod.fst h).symm hne.1
      · rw [if_neg hab] at h
        push_neg at hab
        refine ⟨a, s, b, rfl, ha, ?_, hs, congrArg Prod.fst h, hab.1, hab.2,
          (congrArg Prod.snd h).symm⟩
        intro t ht
        by_contra hc
        exact hb ⟨t, ht, by simpa using hc⟩
  · have hl : ∀ t ∈ seq, isControl t = false := by
      intro t ht
      by_contra hc
      exact hsym ⟨t, ht, by simpa using hc⟩
    rw [check_cmd_plain seq hl] at h
    by_cases he : seq = []
    · rw [if_pos he] at h
      exact absurd (congrArg Prod.fst h).symm hne.1
    · rw [if_neg he] at h
      exact absurd (congrArg Prod.fst h).symm hne.2

/-! ## Lemmas on argument arrays -/

theorem cvec_split (a : List Tok) (s : Tok) (b : List Tok) :
    cvec (a ++ s :: b) = a.map some ++ some s :: cvec b := by
  simp [cvec]

theorem set_after_map (a : List Tok) (x y : Option Tok) (r : List (Option Tok)) :
    (a.map some ++ x :: r).set a.length y = a.map some ++ y :: r := by
  induction a with
  | nil => rfl
  | cons t a ih => simp [ih]

theorem get_after_map (a : List Tok) (r : List (Option Tok)) (k : Nat) :
    (a.map some ++ r).get? (a.length + k) = r.get? k := by
  induction a with
  | nil => simp
  | cons t a ih =>
    rw [List.map_cons, List.cons_append, List.length_cons, Nat.add_right_comm,
      List.get?_cons_succ]
    exact ih

theorem drop_after_map (a : List Tok) (r : List (Option Tok)) (k : Nat) :
    (a.map some ++ r).drop (a.length + k) = r.drop k := by
  induction a with
  | nil => simp
  | cons t a ih =>
    rw [List.map_cons, List.cons_append, List.length_cons, Nat.add_right_comm,
      List.drop_succ_cons]
    exact ih

theorem argv_of_map (a : List Tok) (r : List (Option Tok)) :
    ((a.map some ++ none :: r).takeWhile (fun e => e.isSome)).filterMap id = a := by
  induction a with
  | nil => simp
  | cons t a ih => simp [List.takeWhile_cons, ih]

/-- Store NULL over the symbol: the array then holds the part before it, a
NULL, and the part after it with the closing NULL. -/
theorem store_null_cvec (a : List Tok) (s : Tok) (b : List Tok) :
    store_null (cvec (a ++ s :: b)) (a.length : Int) = a.map some ++ none :: cvec b := by
  rw [cvec_split, store_null, if_neg (by omega), Int.toNat_ofNat, set_after_map]

theorem entry_after_symbol (a : List Tok) (x : Option Tok) (b : List Tok) :
    entry (a.map some ++ x :: cvec b) ((a.length : Int) + 1) = b.head? := by
  have e : ((a.length : Int) + 1).toNat = a.length + 1 := by omega
  rw [entry, if_neg (by omega), e, get_after_map]
  cases b <;> simp [cvec]

theorem entry_zero (a : List Tok) (r : List (Option Tok)) (ha : a ≠ []) :
    entry (a.map some ++ r) 0 = a.head? := by
  cases a with
  | nil => exact absurd rfl ha
  | cons t a => simp [entry]

theorem argv_at_zero (a : List Tok) (r : List (Option Tok)) :
    argv_at (a.map some ++ none :: r) 0 = a := by
  rw [argv_at, if_neg (by omega)]
  exact argv_of_map a r

theorem argv_at_after_symbol (a : List Tok) (x : Option Tok) (b : List Tok) :
    argv_at (a.map some ++ x :: cvec b) ((a.length : Int) + 1) = b := by
  have e : ((a.length : Int) + 1).toNat = a.length + 1 := by omega
  rw [argv_at, if_neg (by omega), e, drop_after_map]
  exact argv_of_map b []

/-! ## Lemmas on the execution strategies -/

/-- The function `exec_input_redirect` on an array split at `pos`: the
file is the entry after the symbol, the argv the part before it. -/
theorem exec_input_redirect_split (a : List Tok) (s file : Tok) (b : List Tok)
    (ha : a ≠ []) :
    exec_input_redirect (cvec (a ++ s :: file :: b)) (a.length : Int) =
      redirect_plan file OpenHow.rdonly STDIN_FILENO a := by
  simp only [exec_input_redirect, redirect_plan, store_null_cvec]
  rw [cvec_split, entry_after_symbol, entry_zero a _ ha, argv_at_zero]
  rfl

/-- The function `exec_output_redirect` on an array split at `pos`. -/
theorem exec_output_redirect_split (a : List Tok) (s file : Tok) (b : List Tok)
    (ha : a ≠ []) :
    exec_output_redirect (cvec (a ++ s :: file :: b)) (a.length : Int) =
      redirect_plan file OpenHow.wronly_creat_trunc_0644 STDOUT_FILENO a := by
  simp only [exec_output_redirect, redirect_plan, store_null_cvec]
  rw [cvec_split, entry_after_symbol, entry_zero a _ ha, argv_at_zero]
  rfl

/-- A run of `redirect_plan` in which every call succeeds. -/
theorem run_redirect_plan (o : Nat → Int) (file : Tok) (how : OpenHow) (slot : Int)
    (argv : List Tok) (h0 : o 0 ≠ -1) (h1 : o 1 ≠ -1) (h2 : o 2 ≠ -1) (h3 : o 3 ≠ -1) :
    run o (redirect_plan file how slot argv) 0 =
      ([Event.sys (Call.open_ (some file) how) (o 0), Event.sys (Call.dup2 (o 0) slot) (o 1),
          Event.sys (Call.close (o 0)) (o 2), Event.execvp argv.head? argv (o 3)],
        Ctl.execed argv.head? argv) := by
  simp [redirect_plan, run, h0, h1, h2, h3]

/-- The function `exec_pipeline` on an array split at `pos`: the first
child gets the part before the symbol, the second the part after it. -/
theorem exec_pipeline_split (a : List Tok) (s : Tok) (b : List Tok)
    (ha : a ≠ []) :
    exec_pipeline (cvec (a ++ s :: b)) (a.length : Int) = pipeline_plan a b := by
  simp only [exec_pipeline, pipeline_plan, store_null_cvec, pipeline_first_child,
    pipeline_second_child, pipe_child_plan]
  rw [entry_after_symbol, entry_zero a _ ha, argv_at_zero, argv_at_after_symbol]

theorem run_ite (o : Nat → Int) (c : Prop) [Decidable c] (p q : Prog) (i : Nat) :
    run o (if c then p else q) i = if c then run o p i else run o q i := by
  split <;> rfl

/-- A child of the pipeline ends in `exit(EXIT_FAILURE)` or in the `execvp`
of its own argv. -/
theorem run_pipe_child_plan (o : Nat → Int) (i : Nat) (unused used slot : Int)
    (argv : List Tok) :
    (run o (pipe_child_plan unused used slot argv) i).2 = Ctl.exited EXIT_FAILURE ∨
      (run o (pipe_child_plan unused used slot argv) i).2 = Ctl.execed argv.head? argv := by
  simp only [pipe_child_plan, run, run_ite, fail]
  split_ifs <;> simp

/-- A child of the pipeline whose calls all succeed reaches its `execvp`. -/
theorem run_pipe_child_plan_ok (o : Nat → Int) (i : Nat) (unused used slot : Int)
    (argv : List Tok) (hok : ∀ n, o n ≠ -1) :
    (run o (pipe_child_plan unused used slot argv) i).2 = Ctl.execed argv.head? argv := by
  simp only [pipe_child_plan, run, run_ite, fail]
  split_ifs <;> simp_all

/-- The process that forked twice ends in an `exit`. -/
theorem run_pipeline_parent (o : Nat → Int) (i : Nat) (pfd0 pfd1 : Int) :
    ∃ st, (run o (pipeline_parent pfd0 pfd1) i).2 = Ctl.exited st := by
  simp only [pipeline_parent, run, run_ite, fail]
  split_ifs <;> simp

/-- How a run of the pipeline skeleton ends, by what `pipe` and the two
`fork`s return. -/
theorem run_fork_twice (o : Nat → Int) (first second parent : Int → Int → Prog) :
    (run o (fork_twice first second parent) 0).2 =
      if o 0 = -1 then Ctl.exited EXIT_FAILURE
      else if o 3 = -1 then Ctl.exited EXIT_FAILURE
      else if o 3 = 0 then (run o (first (o 1) (o 2)) 4).2
      else if o 4 = -1 then Ctl.exited EXIT_FAILURE
      else if o 4 = 0 then (run o (second (o 1) (o 2)) 5).2
      else (run o (parent (o 1) (o 2)) 5).2 := by
  simp only [fork_twice, run, run_ite, fail]
  split_ifs <;> rfl

theorem pipeline_plan_eq (left right : List Tok) :
    pipeline_plan left right =
      fork_twice (fun pfd0 pfd1 => pipe_child_plan pfd0 pfd1 STDOUT_FILENO left)
        (fun pfd0 pfd1 => pipe_child_plan pfd1 pfd0 STDIN_FILENO right) pipeline_parent :=
  rfl

/-- Which process of the pipeline reaches which `execvp`: the first child
(first `fork` returned 0) that of `left`, the second child that of `right`,
and nobody else any. -/
theorem run_pipeline_plan_execed (o : Nat → Int) (left right : List Tok)
    (f : Option Tok) (argv : List Tok)
    (h : (run o (pipeline_plan left right) 0).2 = Ctl.execed f argv) :
    (o 3 = 0 ∧ f = left.head? ∧ argv = left) ∨
      (o 3 ≠ 0 ∧ o 4 = 0 ∧ f = right.head? ∧ argv = right) := by
  rw [pipeline_plan_eq, run_fork_twice] at h
  by_cases h0 : o 0 = -1
  · rw [if_pos h0] at h
    cases h
  rw [if_neg h0] at h
  by_cases h3 : o 3 = -1
  · rw [if_pos h3] at h
    cases h
  rw [if_neg h3] at h
  by_cases h3z : o 3 = 0
  · rw [if_pos h3z] at h
    rcases run_pipe_child_plan o 4 (o 1) (o 2) STDOUT_FILENO left with e | e
    · rw [e] at h
      cases h
    · rw [e] at h
      injection h with h1 h2
      exact Or.inl ⟨h3z, h1.symm, h2.symm⟩
  rw [if_neg h3z] at h
  by_cases h4 : o 4 = -1
  · rw [if_pos h4] at h
    cases h
  rw [if_neg h4] at h
  by_cases h4z : o 4 = 0
  · rw [if_pos h4z] at h
    rcases run_pipe_child_plan o 5 (o 2) (o 1) STDIN_FILENO right with e | e
    · rw [e] at h
      cases h
    · rw [e] at h
      injection h with h1 h2
      exact Or.inr ⟨h3z, h4z, h1.symm, h2.symm⟩
  · rw [if_neg h4z] at h
    obtain ⟨st, e⟩ := run_pipeline_parent o 5 (o 1) (o 2)
    rw [e] at h
    cases h

theorem run_pipeline_plan_first (o : Nat → Int) (left right : List Tok)
    (hok : ∀ n, o n ≠ -1) (h3 : o 3 = 0) :
    (run o (pipeline_plan left right) 0).2 = Ctl.execed left.head? left := by
  rw [pipeline_plan_eq, run_fork_twice, if_neg (hok 0), if_neg (hok 3), if_pos h3]
  exact run_pipe_child_plan_ok o 4 _ _ _ _ hok

theorem run_pipeline_plan_second (o : Nat → Int) (left right : List Tok)
    (hok : ∀ n, o n ≠ -1) (h3 : o 3 ≠ 0) (h4 : o 4 = 0) :
    (run o (pipeline_plan left right) 0).2 = Ctl.execed right.head? right := by
  rw [pipeline_plan_eq, run_fork_twice, if_neg (hok 0), if_neg (hok 3), if_neg h3,
    if_neg (hok 4), if_pos h4]
  exact run_pipe_child_plan_ok o 5 _ _ _ _ hok

theorem symbolType_pipeline {s : Tok} (hs : isControl s = true)
    (ht : symbolType s = CMD_PIPELINE) : s = ['|'] := by
  simp only [isControl, Bool.or_eq_true, decide_eq_true_eq] at hs
  rcases hs with (h | h) | h
  · subst h
    exact absurd ht (by decide)
  · subst h
    exact absurd ht (by decide)
  · exact h

/-! ## Lemmas on the dispatcher -/

/-- With another first token than `cd` and `exit`, `run_cmd` is `exec_cmd`. -/
theorem run_command_external (spins : Nat) (t : Tok) (rest : List Tok)
    (hcd : t ≠ ['c', 'd']) (hexit : t ≠ ['e', 'x', 'i', 't']) :
    run_command spins (t :: rest) = exec_cmd spins (t :: rest) := by
  simp [run_command, builtin_cmd, hcd, hexit, Prog.seq]

/-- The first thing `exec_cmd` does is `fork`. -/
theorem exec_cmd_forks (spins : Nat) (arg_vec : List Tok) (o : Nat → Int) :
    forks (run o (exec_cmd spins arg_vec) 0).1 := by
  refine ⟨o 0, ?_⟩
  simp [exec_cmd, run]

/-- The built-in `cd` forks nothing. -/
theorem run_command_cd (spins : Nat) (rest : List Tok) (o : Nat → Int) :
    ¬ forks (run o (run_command spins (['c', 'd'] :: rest)) 0).1 := by
  rintro ⟨r, hr⟩
  match rest with
  | [] => simp [run_command, builtin_cmd, Prog.seq, run] at hr
  | [d] =>
    simp only [run_command, builtin_cmd, Prog.seq, run] at hr
    by_cases h : o 0 = -1 <;> simp [h, Prog.seq, run] at hr
  | d :: e :: more => simp [run_command, builtin_cmd, Prog.seq, run] at hr

/-- The built-in `exit` forks nothing. -/
theorem run_command_exit (spins : Nat) (rest : List Tok) (o : Nat → Int) :
    ¬ forks (run o (run_command spins (['e', 'x', 'i', 't'] :: rest)) 0).1 := by
  rintro ⟨r, hr⟩
  simp [run_command, builtin_cmd, Prog.seq, run] at hr

/-! ## Lemmas on the process supervisor -/

/-- The `wait` loop returns once `wait` reports the child, if the model
unrolls it that far. -/
theorem run_wait_loop (o : Nat → Int) (pid : Int) (spins i : Nat)
    (h : ∃ k, k < spins ∧ o (i + k) = pid) :
    (run o (wait_loop pid spins) i).2 = Ctl.returned := by
  induction spins generalizing i with
  | zero =>
    obtain ⟨k, hk, _⟩ := h
    omega
  | succ spins ih =>
    simp only [wait_loop, run, run_ite]
    by_cases hi : o i = pid
    · simp [hi]
    · rw [if_pos hi]
      apply ih
      obtain ⟨k, hk, hok⟩ := h
      cases k with
      | zero => exact absurd hok hi
      | succ k => exact ⟨k, by omega, by rw [← hok]; congr 1; omega⟩

/-- One step of `exec_cmd`: the `fork`, then the branch its value selects. -/
theorem run_exec_cmd (o : Nat → Int) (spins : Nat) (seq : List Tok) :
    run o (exec_cmd spins seq) 0 =
      (Event.sys Call.fork (o 0) ::
          (run o (if o 0 = -1 then fail "fork"
            else if o 0 = 0 then (exec_cmd_child seq).seq (wait_loop (o 0) spins)
            else wait_loop (o 0) spins) 1).1,
        (run o (if o 0 = -1 then fail "fork"
          else if o 0 = 0 then (exec_cmd_child seq).seq (wait_loop (o 0) spins)
          else wait_loop (o 0) spins) 1).2) :=
  rfl

/-- The child of `exec_cmd` on a sequence classified `CMD_INVALID`. -/
theorem run_exec_cmd_child_invalid (seq : List Tok) (o : Nat → Int) (i : Nat) (q : Prog)
    (hinv : (check_cmd seq).1 = CMD_INVALID) :
    run o ((exec_cmd_child seq).seq q) i =
      ([Event.act (Act.signal_dfl Signal.SIGINT), Event.act (Act.signal_dfl Signal.SIGQUIT),
          Event.act (Act.enter Strategy.invalid),
          Event.act (Act.fprintf_stderr "Invalid command syntax!\n"),
          Event.exit EXIT_FAILURE],
        Ctl.exited EXIT_FAILURE) := by
  have h0 : CMD_INVALID ≠ CMD_NORMAL := by decide
  have h1 : CMD_INVALID ≠ CMD_INPUT_REDIRECT := by decide
  have h2 : CMD_INVALID ≠ CMD_OUTPUT_REDIRECT := by decide
  have h4 : CMD_INVALID ≠ CMD_PIPELINE := by decide
  simp [exec_cmd_child, switch_cmd_type, hinv, h0, h1, h2, h4, fall_through, case_body,
    Prog.seq, run]

/-! ## Lemmas on programs that never return -/

theorem entered_act_cons (a : Act) (h : ∀ c, a ≠ Act.enter c) (es : List Event) :
    entered (Event.act a :: es) = entered es := by
  cases a with
  | enter c => exact absurd rfl (h c)
  | signal_dfl _ => rfl
  | perror _ => rfl
  | fprintf_stderr _ => rfl
  | printf _ => rfl

/-- A program all of whose paths end in `exit` or `execvp` runs the same
whatever is put after it, ends so on every oracle, and enters no switch
case. -/
theorem run_final (p : Prog) (hp : p.final) (q : Prog) (o : Nat → Int) (i : Nat) :
    run o (p.seq q) i = run o p i ∧ (run o p i).2.ended = true ∧
      entered (run o p i).1 = [] := by
  induction p generalizing i with
  | sys c k ih =>
    obtain ⟨h1, h2, h3⟩ := ih (o i) (hp (o i)) (i + 1)
    refine ⟨?_, ?_, ?_⟩
    · simp only [Prog.seq, run, h1]
    · simpa only [run] using h2
    · simpa only [run, entered] using h3
  | pipe k ih =>
    obtain ⟨h1, h2, h3⟩ := ih (o i) (o (i + 1)) (o (i + 2)) (hp _ _ _) (i + 3)
    refine ⟨?_, ?_, ?_⟩
    · simp only [Prog.seq, run, h1]
    · simpa only [run] using h2
    · simpa only [run, entered] using h3
  | execvp f a k ih =>
    obtain ⟨h1, h2, h3⟩ := ih hp (i + 1)
    by_cases hi : o i = -1
    · refine ⟨?_, ?_, ?_⟩
      · simp only [Prog.seq, run, hi, if_true, h1]
      · simpa only [run, hi, if_true] using h2
      · simpa only [run, hi, if_true, entered] using h3
    · refine ⟨?_, ?_, ?_⟩
      · simp only [Prog.seq, run, hi, if_false]
      · simp only [run, hi, if_false, Ctl.ended]
      · simp only [run, hi, if_false, entered]
  | act a k ih =>
    obtain ⟨h1, h2, h3⟩ := ih hp.2 i
    refine ⟨?_, ?_, ?_⟩
    · simp only [Prog.seq, run, h1]
    · simpa only [run] using h2
    · simp only [run]
      rw [entered_act_cons a hp.1]
      exact h3
  | exit st => exact ⟨rfl, rfl, rfl⟩
  | ret => exact absurd hp (by simp [Prog.final])
  | waiting => exact absurd hp (by simp [Prog.final])

theorem final_ite (c : Prop) [Decidable c] (p q : Prog) (hp : p.final) (hq : q.final) :
    (if c then p else q).final := by
  split <;> assumption

theorem fail_final (msg : String) : (fail msg).final := by
  simp [fail, Prog.final]

theorem execvp_final (f : Option Tok) (a : List Tok) :
    (Prog.execvp f a (fail "execvp")).final := by
  simp [Prog.final, fail]

/-- Every path of `exec_normal` ends in `execvp` or `exit`. -/
theorem exec_normal_final (arg_vec : List (Option Tok)) : (exec_normal arg_vec).final :=
  execvp_final _ _

/-- Every path of `exec_input_redirect` ends in `execvp` or `exit`. -/
theorem exec_input_redirect_final (arg_vec : List (Option Tok)) (pos : Int) :
    (exec_input_redirect arg_vec pos).final := by
  intro fdin
  apply final_ite _ _ _ (fail_final _)
  intro r
  apply final_ite _ _ _ (fail_final _)
  intro r
  exact final_ite _ _ _ (fail_final _) (execvp_final _ _)

/-- Every path of `exec_output_redirect` ends in `execvp` or `exit`. -/
theorem exec_output_redirect_final (arg_vec : List (Option Tok)) (pos : Int) :
    (exec_output_redirect arg_vec pos).final := by
  intro fdout
  apply final_ite _ _ _ (fail_final _)
  intro r
  apply final_ite _ _ _ (fail_final _)
  intro r
  exact final_ite _ _ _ (fail_final _) (execvp_final _ _)

theorem pipeline_first_child_final (arg_vec : List (Option Tok)) (pfd0 pfd1 : Int) :
    (pipeline_first_child arg_vec pfd0 pfd1).final := by
  intro r
  apply final_ite _ _ _ (fail_final _)
  apply final_ite _ _ _ _ (execvp_final _ _)
  intro r
  apply final_ite _ _ _ (fail_final _)
  intro r
  exact final_ite _ _ _ (fail_final _) (execvp_final _ _)

theorem pipeline_second_child_final (arg_vec : List (Option Tok)) (pos pfd0 pfd1 : Int) :
    (pipeline_second_child arg_vec pos pfd0 pfd1).final := by
  intro r
  apply final_ite _ _ _ (fail_final _)
  apply final_ite _ _ _ _ (execvp_final _ _)
  intro r
  apply final_ite _ _ _ (fail_final _)
  intro r
  exact final_ite _ _ _ (fail_final _) (execvp_final _ _)

theorem pipeline_parent_final (pfd0 pfd1 : Int) : (pipeline_parent pfd0 pfd1).final := by
  intro r
  apply final_ite _ _ _ (fail_final _)
  intro r
  apply final_ite _ _ _ (fail_final _)
  intro r
  apply final_ite _ _ _ (fail_final _)
  intro r
  exact final_ite _ _ _ (fail_final _) (by simp [Prog.final])

/-- Every path of `exec_pipeline`, in each of its three processes, ends in
`execvp` or `exit`. -/
theorem exec_pipeline_final (arg_vec : List (Option Tok)) (pos : Int) :
    (exec_pipeline arg_vec pos).final := by
  intro r pfd0 pfd1
  apply final_ite _ _ _ (fail_final _)
  intro pid1
  apply final_ite _ _ _ (fail_final _)
  apply final_ite _ _ _ (pipeline_first_child_final _ _ _)
  intro pid2
  apply final_ite _ _ _ (fail_final _)
  exact final_ite _ _ _ (pipeline_second_child_final _ _ _ _) (pipeline_parent_final _ _)

/-- A program all of whose paths end in `exit` or `execvp` is unchanged by
what is put after it. -/
theorem seq_final (p : Prog) (hp : p.final) (q : Prog) : p.seq q = p := by
  induction p with
  | sys c k ih =>
    simp only [Prog.seq]
    congr 1
    funext r
    exact ih r (hp r)
  | pipe k ih =>
    simp only [Prog.seq]
    congr 1
    funext r a b
    exact ih r a b (hp r a b)
  | execvp f a k ih =>
    simp only [Prog.seq]
    congr 1
    exact ih hp
  | act a k ih =>
    simp only [Prog.seq]
    congr 1
    exact ih hp.2
  | exit st => rfl
  | ret => exact absurd hp (by simp [Prog.final])
  | waiting => exact absurd hp (by simp [Prog.final])

/-- Each case body is its ghost entry event followed by a program that
never returns. -/
theorem case_body_shape (arg_vec : List (Option Tok)) (pos : Int) (c : Strategy) :
    ∃ body : Prog, body.final ∧ case_body arg_vec pos c = Prog.act (Act.enter c) body := by
  cases c with
  | normal => exact ⟨_, exec_normal_final arg_vec, rfl⟩
  | input_redirect => exact ⟨_, exec_input_redirect_final arg_vec pos, rfl⟩
  | output_redirect => exact ⟨_, exec_output_redirect_final arg_vec pos, rfl⟩
  | pipeline => exact ⟨_, exec_pipeline_final arg_vec pos, rfl⟩
  | invalid => exact ⟨_, by simp [Prog.final], rfl⟩

/-- No case falls through: the cases after the first one entered never run. -/
theorem fall_through_cons (arg_vec : List (Option Tok)) (pos : Int) (c : Strategy)
    (cs : List Strategy) :
    fall_through arg_vec pos (c :: cs) = case_body arg_vec pos c := by
  obtain ⟨body, hfinal, hbody⟩ := case_body_shape arg_vec pos c
  simp only [fall_through, hbody, Prog.seq]
  rw [seq_final body hfinal]

/-- The function `check_cmd` returns one of the five `CMD_*` values. -/
theorem check_cmd_five (seq : List Tok) :
    ∃ c : Strategy, c.cmd_type = (check_cmd seq).1 := by
  by_cases hsym : ∃ t ∈ seq, isControl t = true
  · obtain ⟨a, s, b, hl, ha, hs⟩ := split_at_first_control seq hsym
    subst hl
    rw [check_cmd_split a s b ha hs]
    split_ifs
    · exact ⟨Strategy.invalid, rfl⟩
    · exact ⟨Strategy.invalid, rfl⟩
    · simp only [isControl, Bool.or_eq_true, decide_eq_true_eq] at hs
      rcases hs with (h | h) | h
      · exact ⟨Strategy.input_redirect, by subst h; rfl⟩
      · exact ⟨Strategy.output_redirect, by subst h; rfl⟩
      · exact ⟨Strategy.pipeline, by subst h; rfl⟩
  · have hl : ∀ t ∈ seq, isControl t = false := by
      intro t ht
      by_contra hc
      exact hsym ⟨t, ht, by simpa using hc⟩
    rw [check_cmd_plain seq hl]
    split_ifs
    · exact ⟨Strategy.invalid, rfl⟩
    · exact ⟨Strategy.normal, rfl⟩

/-- The inner `switch` runs the body of the case whose label is
`cmd_type`, and that body only. -/
theorem switch_cmd_type_eq (arg_vec : List (Option Tok)) (pos : Int) (c : Strategy) :
    switch_cmd_type arg_vec c.cmd_type pos = case_body arg_vec pos c := by
  cases c <;>
    simp [switch_cmd_type, Strategy.cmd_type, fall_through_cons, CMD_NORMAL,
      CMD_INPUT_REDIRECT, CMD_OUTPUT_REDIRECT, CMD_PIPELINE, CMD_INVALID]

/-! ## Lemmas on descriptors -/

/-- Redirection when `open` returns another descriptor than the standard
slot and every call succeeds: at `execvp` the slot refers to the opened file
and the descriptor `open` returned is closed again. -/
theorem redirect_plan_fds (T : FdTable) (o : Nat → Int) (file : Tok) (how : OpenHow)
    (slot : Int) (argv : List Tok) (h0 : o 0 ≠ -1) (h1 : o 1 ≠ -1) (h2 : o 2 ≠ -1)
    (h3 : o 3 ≠ -1) (hfd : o 0 ≠ slot) (n : Int) :
    T.after (run o (redirect_plan file how slot argv) 0).1 n =
      if n = o 0 then none
      else if n = slot then some (File.opened (some file) how)
      else T n := by
  rw [run_redirect_plan o file how slot argv h0 h1 h2 h3]
  simp only [FdTable.after, List.foldl, FdTable.step, FdTable.set, h0, h1, h2, hfd,
    if_false, if_true]
  by_cases hn : n = o 0
  · simp [hn]
  · by_cases hs : n = slot
    · simp [hn, hs, Ne.symm hfd]
    · simp [hn, hs]

/-- Redirection when `open` returns the standard slot itself and every call
succeeds: `dup2` does nothing, `close` closes the slot, and `execvp` runs
with the slot closed. -/
theorem redirect_plan_fds_same (T : FdTable) (o : Nat → Int) (file : Tok) (how : OpenHow)
    (slot : Int) (argv : List Tok) (h0 : o 0 ≠ -1) (h1 : o 1 ≠ -1) (h2 : o 2 ≠ -1)
    (h3 : o 3 ≠ -1) (hfd : o 0 = slot) :
    T.after (run o (redirect_plan file how slot argv) 0).1 slot = none := by
  rw [run_redirect_plan o file how slot argv h0 h1 h2 h3]
  simp [FdTable.after, FdTable.step, FdTable.set, h0, h1, h2, hfd]

/-! ## Tokenizer claims -/

/-- C2: for every NULL-terminated argument sequence that holds at least one
control symbol: if exactly one element is a control symbol and its index `p`
satisfies `0 < p < last index`, `check_cmd` returns the type matching that
symbol and sets `*pos` to `p`; in every other case it returns
`CMD_INVALID`. -/
theorem check_cmd_one_symbol (arg_vec : List Tok)
    (hsym : ∃ t ∈ arg_vec, isControl t = true) :
    (∀ (p : Nat) (s : Tok), arg_vec.countP isControl = 1 → arg_vec[p]? = some s →
        isControl s = true → 0 < p → p < arg_vec.length - 1 →
        check_cmd arg_vec = (symbolType s, (p : Int))) ∧
      ((¬ ∃ (p : Nat) (s : Tok), arg_vec.countP isControl = 1 ∧ arg_vec[p]? = some s ∧
          isControl s = true ∧ 0 < p ∧ p < arg_vec.length - 1) →
        (check_cmd arg_vec).1 = CMD_INVALID) := by
  obtain ⟨a, s0, b, hl, ha, hs0⟩ := split_at_first_control arg_vec hsym
  subst hl
  have hca : a.countP isControl = 0 := by
    rw [List.countP_eq_zero]
    intro t ht
    simp [ha t ht]
  have hcount : (a ++ s0 :: b).countP isControl = 1 + b.countP isControl := by
    rw [List.countP_append, List.countP_cons, hca, hs0]
    simp
    omega
  have hb_of : b.countP isControl = 0 → ¬ ∃ t ∈ b, isControl t = true := by
    intro h0
    rw [List.countP_eq_zero] at h0
    rintro ⟨t, ht, hc⟩
    exact h0 t ht hc
  have hsplit := check_cmd_split a s0 b ha hs0
  constructor
  · intro p s hone hp hs hpos hlast
    have hb0 : b.countP isControl = 0 := by omega
    have hnb := hb_of hb0
    have hpa : p = a.length := by
      rcases Nat.lt_trichotomy p a.length with h | h | h
      · rw [List.getElem?_append_left h] at hp
        have hmem : s ∈ a := List.getElem?_mem hp
        rw [ha s hmem] at hs
        cases hs
      · exact h
      · rw [List.getElem?_append_right (by omega)] at hp
        obtain ⟨k, hk⟩ : ∃ k, p - a.length = k + 1 := ⟨p - a.length - 1, by omega⟩
        rw [hk, List.getElem?_cons_succ] at hp
        have hmem : s ∈ b := List.getElem?_mem hp
        exact absurd ⟨s, hmem, hs⟩ hnb
    subst hpa
    have hs_eq : s = s0 := by
      rw [List.getElem?_append_right (Nat.le_refl _)] at hp
      simpa using hp.symm
    subst hs_eq
    have hane : a ≠ [] := List.length_pos.mp hpos
    have hbne : b ≠ [] := by
      intro hb
      subst hb
      simp at hlast
    rw [hsplit, if_neg hnb, if_neg (by simp [hane, hbne])]
  · intro hno
    rw [hsplit]
    by_cases hb : ∃ t ∈ b, isControl t = true
    · rw [if_pos hb]
    · rw [if_neg hb]
      by_cases hab : a = [] ∨ b = []
      · rw [if_pos hab]
      · exfalso
        push_neg at hab
        apply hno
        have hb0 : b.countP isControl = 0 := by
          rw [List.countP_eq_zero]
          intro t ht hc
          exact hb ⟨t, ht, hc⟩
        refine ⟨a.length, s0, by omega, ?_, hs0, List.length_pos.mpr hab.1, ?_⟩
        · rw [List.getElem?_append_right (Nat.le_refl _)]
          simp
        · have := List.length_pos.mpr hab.2
          simp
          omega

theorem check_cmd_one_symbol_witness :
    check_cmd ["cmd1".toList, "arg".toList, "<".toList, "file".toList] =
        (symbolType "<".toList, ((2 : Nat) : Int)) ∧
      (check_cmd ["ls".toList, "|".toList, "wc".toList, "|".toList, "sort".toList]).1 =
        CMD_INVALID :=
  ⟨(check_cmd_one_symbol ["cmd1".toList, "arg".toList, "<".toList, "file".toList]
      ⟨"<".toList, by decide, by decide⟩).1 2 "<".toList
      (by decide) (by decide) (by decide) (by decide) (by decide),
    (check_cmd_one_symbol ["ls".toList, "|".toList, "wc".toList, "|".toList, "sort".toList]
      ⟨"|".toList, by decide, by decide⟩).2
      (fun ⟨_, _, hc, _⟩ => absurd hc (by decide))⟩

/-- C3 at the empty sequence: no element is a control symbol, and yet
`check_cmd` returns `CMD_INVALID`, not `CMD_NORMAL`: `*pos` and
`item_offset` both still hold their initial `-1`, so the test for a symbol
at the end fires although there is no symbol. -/
theorem check_cmd_empty :
    (∀ t ∈ ([] : List Tok), isControl t = false) ∧
      check_cmd [] = (CMD_INVALID, -1) ∧ (check_cmd []).1 ≠ CMD_NORMAL := by
  decide

/-- On every non-empty sequence in which no element is exactly `<`, `>` or
`|`, `check_cmd` returns `CMD_NORMAL` (and leaves `*pos` at `-1`). -/
theorem check_cmd_no_symbol (arg_vec : List Tok) (hne : arg_vec ≠ [])
    (hl : ∀ t ∈ arg_vec, isControl t = false) :
    check_cmd arg_vec = (CMD_NORMAL, -1) := by
  rw [check_cmd_plain arg_vec hl, if_neg hne]

/-! ## Execution strategy claims -/

/-- C4: for every argument sequence that `check_cmd` classifies as input
redirect or output redirect at position `pos`, the token at index `pos+1`
exists (it is not the NULL), the prefix `seq[0..pos)` is non-empty, and
`exec_input_redirect` / `exec_output_redirect` open that token as the file
and call `execvp` with the prefix as argv (the call is reached whenever
`open`, `dup2` and `close` succeed); whatever tokens follow index `pos+1`,
the file and the argv are the same. -/
theorem redirect_target_and_argv (seq : List Tok) (pos : Int)
    (h : check_cmd seq = (CMD_INPUT_REDIRECT, pos) ∨
      check_cmd seq = (CMD_OUTPUT_REDIRECT, pos)) :
    ∃ (p : Nat) (file : Tok), pos = (p : Int) ∧ seq[p + 1]? = some file ∧
      seq.take p ≠ [] ∧
      exec_input_redirect (cvec seq) pos =
        redirect_plan file OpenHow.rdonly STDIN_FILENO (seq.take p) ∧
      exec_output_redirect (cvec seq) pos =
        redirect_plan file OpenHow.wronly_creat_trunc_0644 STDOUT_FILENO (seq.take p) ∧
      (∀ later : List Tok,
        exec_input_redirect (cvec (seq.take (p + 2) ++ later)) pos =
            exec_input_redirect (cvec seq) pos ∧
          exec_output_redirect (cvec (seq.take (p + 2) ++ later)) pos =
            exec_output_redirect (cvec seq) pos) ∧
      (∀ o : Nat → Int, o 0 ≠ -1 → o 1 ≠ -1 → o 2 ≠ -1 → o 3 ≠ -1 →
        (run o (exec_input_redirect (cvec seq) pos) 0).2 =
            Ctl.execed seq.head? (seq.take p) ∧
          (run o (exec_output_redirect (cvec seq) pos) 0).2 =
            Ctl.execed seq.head? (seq.take p)) := by
  have hshape : ∃ ty, check_cmd seq = (ty, pos) ∧
      (ty = CMD_INPUT_REDIRECT ∨ ty = CMD_OUTPUT_REDIRECT ∨ ty = CMD_PIPELINE) := by
    rcases h with h | h
    · exact ⟨_, h, Or.inl rfl⟩
    · exact ⟨_, h, Or.inr (Or.inl rfl)⟩
  obtain ⟨ty, hc, hty⟩ := hshape
  obtain ⟨a, s, b, hseq, _, _, _, _, hane, hbne, hpos⟩ := check_cmd_shape seq ty pos hc hty
  obtain ⟨file, b, rfl⟩ : ∃ file b1, b = file :: b1 := by
    cases b with
    | nil => exact absurd rfl hbne
    | cons f b1 => exact ⟨f, b1, rfl⟩
  subst hseq hpos
  have htake : (a ++ s :: file :: b).take a.length = a := List.take_left' rfl
  have htake2 : (a ++ s :: file :: b).take (a.length + 2) = a ++ [s, file] := by
    have e : a ++ s :: file :: b = (a ++ [s, file]) ++ b := by simp
    rw [e]
    exact List.take_left' (by simp)
  have hhead : (a ++ s :: file :: b).head? = a.head? := by
    cases a with
    | nil => exact absurd rfl hane
    | cons t a => rfl
  have hin := exec_input_redirect_split a s file b hane
  have hout := exec_output_redirect_split a s file b hane
  refine ⟨a.length, file, rfl, ?_, ?_, ?_, ?_, ?_, ?_⟩
  · rw [List.getElem?_append_right (by omega)]
    simp
  · rw [htake]
    exact hane
  · rw [htake]
    exact hin
  · rw [htake]
    exact hout
  · intro later
    have e : a ++ [s, file] ++ later = a ++ s :: file :: later := by simp
    rw [htake2, e, hin, hout, exec_input_redirect_split a s file later hane,
      exec_output_redirect_split a s file later hane]
    exact ⟨rfl, rfl⟩
  · intro o h0 h1 h2 h3
    rw [htake, hhead, hin, hout, run_redirect_plan o _ _ _ _ h0 h1 h2 h3,
      run_redirect_plan o _ _ _ _ h0 h1 h2 h3]
    exact ⟨rfl, rfl⟩

theorem redirect_target_and_argv_witness :
    exec_input_redirect (cvec ["cmd1".toList, "arg".toList, "<".toList, "file".toList]) 2 =
        redirect_plan "file".toList OpenHow.rdonly STDIN_FILENO
          ["cmd1".toList, "arg".toList] ∧
      (run (fun _ => 3) (exec_input_redirect
          (cvec ["cmd1".toList, "arg".toList, "<".toList, "file".toList]) 2) 0).2 =
        Ctl.execed (some "cmd1".toList) ["cmd1".toList, "arg".toList] := by
  obtain ⟨p, file, hp, hf, _, hin, _, _, hrun⟩ :=
    redirect_target_and_argv ["cmd1".toList, "arg".toList, "<".toList, "file".toList] 2
      (Or.inl (by decide))
  have hp2 : p = 2 := by omega
  subst hp2
  have hfile : file = "file".toList := by
    have : some "file".toList = some file := hf
    exact (Option.some.inj this).symm
  subst hfile
  exact ⟨hin, (hrun (fun _ => 3) (by decide) (by decide) (by decide) (by decide)).1⟩

/-- C5: for every argument sequence that `check_cmd` classifies as
`CMD_PIPELINE` at position `pos`, with `left = seq[0..pos)` and
`right = seq[pos+1..end)`: both are non-empty, neither holds a control
symbol, `left`, then `|`, then `right` is the original sequence, and
`exec_pipeline` runs `left` in its first child and `right` in its second
child (each `execvp` is reached when the calls before it succeed, and no
process of the pipeline runs anything else). -/
theorem pipeline_left_right (seq : List Tok) (pos : Int)
    (h : check_cmd seq = (CMD_PIPELINE, pos)) :
    ∃ p : Nat, pos = (p : Int) ∧
      seq.take p ≠ [] ∧ seq.drop (p + 1) ≠ [] ∧
      (∀ t ∈ seq.take p, isControl t = false) ∧
      (∀ t ∈ seq.drop (p + 1), isControl t = false) ∧
      seq.take p ++ ['|'] :: seq.drop (p + 1) = seq ∧
      exec_pipeline (cvec seq) pos = pipeline_plan (seq.take p) (seq.drop (p + 1)) ∧
      (∀ o : Nat → Int, (∀ n, o n ≠ -1) → o 3 = 0 →
        (run o (exec_pipeline (cvec seq) pos) 0).2 =
          Ctl.execed (seq.take p).head? (seq.take p)) ∧
      (∀ o : Nat → Int, (∀ n, o n ≠ -1) → o 3 ≠ 0 → o 4 = 0 →
        (run o (exec_pipeline (cvec seq) pos) 0).2 =
          Ctl.execed (seq.drop (p + 1)).head? (seq.drop (p + 1))) ∧
      (∀ (o : Nat → Int) (f : Option Tok) (argv : List Tok),
        (run o (exec_pipeline (cvec seq) pos) 0).2 = Ctl.execed f argv →
        (o 3 = 0 ∧ argv = seq.take p) ∨
          (o 3 ≠ 0 ∧ o 4 = 0 ∧ argv = seq.drop (p + 1))) := by
  obtain ⟨a, s, b, hseq, ha, hb, hs, hty, hane, hbne, hpos⟩ :=
    check_cmd_shape seq CMD_PIPELINE pos h (Or.inr (Or.inr rfl))
  have hbar := symbolType_pipeline hs hty
  subst hseq hpos hbar
  have htake : (a ++ ['|'] :: b).take a.length = a := List.take_left' rfl
  have hdrop : (a ++ ['|'] :: b).drop (a.length + 1) = b := by
    have e : a ++ ['|'] :: b = (a ++ [['|']]) ++ b := by simp
    rw [e]
    exact List.drop_left' (by simp)
  have hplan := exec_pipeline_split a ['|'] b hane
  refine ⟨a.length, rfl, ?_⟩
  rw [htake, hdrop, hplan]
  refine ⟨hane, hbne, ha, hb, rfl, rfl, ?_, ?_, ?_⟩
  · intro o hok h3
    exact run_pipeline_plan_first o a b hok h3
  · intro o hok h3 h4
    exact run_pipeline_plan_second o a b hok h3 h4
  · intro o f argv hrun
    rcases run_pipeline_plan_execed o a b f argv hrun with ⟨h3, _, hargv⟩ | ⟨h3, h4, _, hargv⟩
    · exact Or.inl ⟨h3, hargv⟩
    · exact Or.inr ⟨h3, h4, hargv⟩

theorem pipeline_left_right_witness :
    ["ls".toList] ++ ['|'] :: ["wc".toList, "-l".toList] =
        ["ls".toList, "|".toList, "wc".toList, "-l".toList] ∧
      (run (fun n => if n = 3 then 0 else 5)
          (exec_pipeline (cvec ["ls".toList, "|".toList, "wc".toList, "-l".toList]) 1) 0).2 =
        Ctl.execed (some "ls".toList) ["ls".toList] ∧
      (run (fun n => if n = 4 then 0 else 5)
          (exec_pipeline (cvec ["ls".toList, "|".toList, "wc".toList, "-l".toList]) 1) 0).2 =
        Ctl.execed (some "wc".toList) ["wc".toList, "-l".toList] := by
  obtain ⟨p, hp, _, _, _, _, hjoin, _, h1, h2, _⟩ :=
    pipeline_left_right ["ls".toList, "|".toList, "wc".toList, "-l".toList] 1 (by decide)
  have hp1 : p = 1 := by omega
  subst hp1
  refine ⟨hjoin, h1 _ ?_ (by decide), h2 _ ?_ (by decide) (by decide)⟩
  · intro n
    by_cases hn : n = 3 <;> simp [hn]
  · intro n
    by_cases hn : n = 4 <;> simp [hn]

/-! ## Dispatcher claims -/

/-- C6: for every input line, `run_cmd` applied to the tokenized argument
sequence calls `fork` (it is then `exec_cmd` itself) if and only if the
sequence is non-empty and its first token is neither `cd` nor `exit`,
whatever else the line holds; and on a line that is empty or made of spaces
only the sequence is empty and `run_cmd` returns at once without any call. -/
theorem run_command_forks_iff (line : List Char) (args : List Tok)
    (hargs : handle_input line = Parsed.args args) (spins : Nat) (o : Nat → Int) :
    (forks (run o (run_command spins args) 0).1 ↔
        (args ≠ [] ∧ args.head? ≠ some "cd".toList ∧ args.head? ≠ some "exit".toList)) ∧
      ((args ≠ [] ∧ args.head? ≠ some "cd".toList ∧ args.head? ≠ some "exit".toList) →
        run_command spins args = exec_cmd spins args) ∧
      ((∀ c ∈ line, c = DELIM) →
        args = [] ∧ run o (run_command spins args) 0 = ([], Ctl.returned)) := by
  have hext : (args ≠ [] ∧ args.head? ≠ some "cd".toList ∧
      args.head? ≠ some "exit".toList) → run_command spins args = exec_cmd spins args := by
    rintro ⟨hne, hcd, hexit⟩
    cases args with
    | nil => exact absurd rfl hne
    | cons t rest =>
      apply run_command_external
      · intro h
        exact hcd (by rw [h]; rfl)
      · intro h
        exact hexit (by rw [h]; rfl)
  refine ⟨⟨?_, ?_⟩, hext, ?_⟩
  · intro hf
    cases args with
    | nil =>
      obtain ⟨r, hr⟩ := hf
      simp [run_command, run] at hr
    | cons t rest =>
      refine ⟨List.cons_ne_nil _ _, ?_, ?_⟩
      · intro h
        have ht : t = ['c', 'd'] := Option.some.inj h
        subst ht
        exact run_command_cd spins rest o hf
      · intro h
        have ht : t = ['e', 'x', 'i', 't'] := Option.some.inj h
        subst ht
        exact run_command_exit spins rest o hf
  · intro h
    rw [hext h]
    exact exec_cmd_forks spins args o
  · intro hblank
    have hlen : line.length + 2 ≤ MAX_ARG_LEN := by
      by_contra hlong
      rw [handle_input_long line (by omega)] at hargs
      cases hargs
    rw [handle_input_eq line hlen, nonEmptyPieces_blank line hblank] at hargs
    have hnil : args = [] := by
      injection hargs with h1
      exact h1.symm
    subst hnil
    exact ⟨rfl, rfl⟩

theorem run_command_forks_iff_witness :
    (forks (run (answers [7, 7]) (run_command 1 ["ls".toList, "|".toList]) 0).1 ↔
        (["ls".toList, "|".toList] ≠ [] ∧
          ["ls".toList, "|".toList].head? ≠ some "cd".toList ∧
          ["ls".toList, "|".toList].head? ≠ some "exit".toList)) ∧
      run_command 1 ["ls".toList, "|".toList] = exec_cmd 1 ["ls".toList, "|".toList] ∧
      run (answers []) (run_command 1 []) 0 = ([], Ctl.returned) :=
  ⟨(run_command_forks_iff "ls |".toList ["ls".toList, "|".toList] (by decide) 1
      (answers [7, 7])).1,
    (run_command_forks_iff "ls |".toList ["ls".toList, "|".toList] (by decide) 1
      (answers [7, 7])).2.1 (by decide),
    ((run_command_forks_iff "   ".toList [] (by decide) 1 (answers [])).2.2 (by decide)).2⟩

/-! ## Process supervisor claims -/

/-- C7: for every argument sequence that `check_cmd` classifies as
`CMD_INVALID` and whose first token is not a built-in: the child of
`exec_cmd` (the process in which `fork` returned 0) resets the two signals,
writes the syntax error to the error stream and exits with failure, and does
nothing else: no `open`, `pipe`, `fork`, `dup2` or `execvp`; and in the
parent, once `fork` has succeeded and `wait` reports that child, `run_cmd`
returns. -/
theorem invalid_is_reported (seq : List Tok) (spins : Nat)
    (hinv : (check_cmd seq).1 = CMD_INVALID) (hne : seq ≠ [])
    (hcd : seq.head? ≠ some "cd".toList) (hexit : seq.head? ≠ some "exit".toList) :
    (∀ o : Nat → Int, o 0 = 0 →
        run o (run_command spins seq) 0 =
          ([Event.sys Call.fork 0,
              Event.act (Act.signal_dfl Signal.SIGINT),
              Event.act (Act.signal_dfl Signal.SIGQUIT),
              Event.act (Act.enter Strategy.invalid),
              Event.act (Act.fprintf_stderr "Invalid command syntax!\n"),
              Event.exit EXIT_FAILURE],
            Ctl.exited EXIT_FAILURE)) ∧
      (∀ (o : Nat → Int) (k : Nat), o 0 ≠ -1 → o 0 ≠ 0 → k < spins → o (k + 1) = o 0 →
        (run o (run_command spins seq) 0).2 = Ctl.returned) := by
  have hrun : run_command spins seq = exec_cmd spins seq := by
    cases seq with
    | nil => exact absurd rfl hne
    | cons t rest =>
      apply run_command_external
      · intro h
        exact hcd (by rw [h]; rfl)
      · intro h
        exact hexit (by rw [h]; rfl)
  rw [hrun]
  constructor
  · intro o h0
    rw [run_exec_cmd, h0, if_neg (by decide), if_pos rfl,
      run_exec_cmd_child_invalid seq o 1 _ hinv]
  · intro o k h1 h0 hk hw
    rw [run_exec_cmd, if_neg h1, if_neg h0]
    exact run_wait_loop o (o 0) spins 1 ⟨k, hk, by rw [Nat.add_comm]; exact hw⟩

theorem invalid_is_reported_witness :
    (run (answers [0]) (run_command 2 ["|".toList, "ls".toList]) 0).2 =
        Ctl.exited EXIT_FAILURE ∧
      (run (answers [0]) (run_command 2 ["ls".toList, "|".toList]) 0).2 =
        Ctl.exited EXIT_FAILURE ∧
      (run (answers [0]) (run_command 2
          ["ls".toList, "|".toList, "wc".toList, "|".toList, "sort".toList]) 0).2 =
        Ctl.exited EXIT_FAILURE ∧
      (run (answers [7, 3, 7]) (run_command 2 ["ls".toList, "|".toList]) 0).2 =
        Ctl.returned :=
  ⟨congrArg Prod.snd ((invalid_is_reported ["|".toList, "ls".toList] 2
      (by decide) (by decide) (by decide) (by decide)).1 (answers [0]) (by decide)),
    congrArg Prod.snd ((invalid_is_reported ["ls".toList, "|".toList] 2
      (by decide) (by decide) (by decide) (by decide)).1 (answers [0]) (by decide)),
    congrArg Prod.snd ((invalid_is_reported
      ["ls".toList, "|".toList, "wc".toList, "|".toList, "sort".toList] 2
      (by decide) (by decide) (by decide) (by decide)).1 (answers [0]) (by decide)),
    (invalid_is_reported ["ls".toList, "|".toList] 2
      (by decide) (by decide) (by decide) (by decide)).2 (answers [7, 3, 7]) 1
      (by decide) (by decide) (by decide) (by decide)⟩

/-- C10: in the child branch of `exec_cmd`, for every argument sequence and
every outcome of the system calls, exactly one case of the inner `switch`
is entered, the one whose label `check_cmd` returned (one of the four
`exec_*` strategies, or for `CMD_INVALID` the error report); the run ends
in a successful `execvp` or in an `exit`; whatever follows the `switch`
(the next cases, the `wait` loop of the parent) is never run; and every
path of every `exec_*` function ends in `execvp` or `exit`. -/
theorem child_runs_one_case (seq : List Tok) :
    ∃ c : Strategy, c.cmd_type = (check_cmd seq).1 ∧
      (∀ (o : Nat → Int) (i : Nat),
        entered (run o (exec_cmd_child seq) i).1 = [c] ∧
          (run o (exec_cmd_child seq) i).2.ended = true ∧
          (∀ q : Prog, run o ((exec_cmd_child seq).seq q) i = run o (exec_cmd_child seq) i)) ∧
      (∀ (o : Nat → Int) (spins : Nat), o 0 = 0 →
        run o (exec_cmd spins seq) 0 =
          (Event.sys Call.fork 0 :: (run o (exec_cmd_child seq) 1).1,
            (run o (exec_cmd_child seq) 1).2)) ∧
      (∀ (arg_vec : List (Option Tok)) (pos : Int),
        (exec_normal arg_vec).final ∧ (exec_input_redirect arg_vec pos).final ∧
          (exec_output_redirect arg_vec pos).final ∧ (exec_pipeline arg_vec pos).final) := by
  obtain ⟨c, hc⟩ := check_cmd_five seq
  obtain ⟨body, hfinal, hbody⟩ := case_body_shape (cvec seq) (check_cmd seq).2 c
  have hchild : exec_cmd_child seq =
      Prog.act (Act.signal_dfl Signal.SIGINT)
        (Prog.act (Act.signal_dfl Signal.SIGQUIT) (Prog.act (Act.enter c) body)) := by
    rw [exec_cmd_child, ← hc, switch_cmd_type_eq, hbody]
  have hseq : ∀ q : Prog, (exec_cmd_child seq).seq q = exec_cmd_child seq := by
    intro q
    rw [hchild]
    simp only [Prog.seq]
    rw [seq_final body hfinal]
  refine ⟨c, hc, ?_, ?_, ?_⟩
  · intro o i
    obtain ⟨_, h2, h3⟩ := run_final body hfinal Prog.ret o i
    refine ⟨?_, ?_, ?_⟩
    · rw [hchild]
      simp only [run, entered, h3]
    · rw [hchild]
      simpa only [run] using h2
    · intro q
      rw [hseq q]
  · intro o spins h0
    rw [run_exec_cmd, h0, if_neg (by decide), if_pos rfl, hseq]
  · intro arg_vec pos
    exact ⟨exec_normal_final arg_vec, exec_input_redirect_final arg_vec pos,
      exec_output_redirect_final arg_vec pos, exec_pipeline_final arg_vec pos⟩

theorem child_runs_one_case_witness :
    run (answers [0, 3, 0, 0, -1]) (exec_cmd 2 ["ls".toList, ">".toList, "out".toList]) 0 =
      (Event.sys Call.fork 0 ::
          (run (answers [0, 3, 0, 0, -1])
            (exec_cmd_child ["ls".toList, ">".toList, "out".toList]) 1).1,
        (run (answers [0, 3, 0, 0, -1])
          (exec_cmd_child ["ls".toList, ">".toList, "out".toList]) 1).2) :=
  match child_runs_one_case ["ls".toList, ">".toList, "out".toList] with
  | ⟨_, _, _, h, _⟩ => h (answers [0, 3, 0, 0, -1]) 2 (by decide)

/-! ## Descriptor claims -/

/-- C8 at a table in which the standard slot is free: with standard output
closed, `open` returns descriptor 1 for `ls > out`; `dup2(1, 1)` does
nothing, `close(1)` closes the file, and `execvp` is reached with standard
output closed, not referring to the opened file.  The same happens to
`exec_input_redirect` with standard input closed. -/
theorem redirect_closes_standard_slot :
    (stdout_closed STDOUT_FILENO = none ∧
        (run (answers [1, 1, 0, 0])
          (exec_output_redirect (cvec ["ls".toList, ">".toList, "out".toList]) 1) 0).2 =
          Ctl.execed (some "ls".toList) ["ls".toList] ∧
        stdout_closed.after (run (answers [1, 1, 0, 0])
          (exec_output_redirect (cvec ["ls".toList, ">".toList, "out".toList]) 1) 0).1
          STDOUT_FILENO = none) ∧
      (stdin_closed STDIN_FILENO = none ∧
        (run (answers [0, 0, 0, 0])
          (exec_input_redirect (cvec ["wc".toList, "<".toList, "in".toList]) 1) 0).2 =
          Ctl.execed (some "wc".toList) ["wc".toList] ∧
        stdin_closed.after (run (answers [0, 0, 0, 0])
          (exec_input_redirect (cvec ["wc".toList, "<".toList, "in".toList]) 1) 0).1
          STDIN_FILENO = none) := by
  decide

/-- When `open` returns another descriptor than the standard slot, the
redirection is as C8 says: for every table, at `execvp` the standard slot
refers to the opened file, the descriptor `open` returned is closed, and
every other descriptor is as it was. -/
theorem redirect_binds_standard_slot (T : FdTable) (o : Nat → Int) (seq : List Tok)
    (pos : Int) (h : check_cmd seq = (CMD_OUTPUT_REDIRECT, pos))
    (h0 : o 0 ≠ -1) (h1 : o 1 ≠ -1) (h2 : o 2 ≠ -1) (h3 : o 3 ≠ -1)
    (hfd : o 0 ≠ STDOUT_FILENO) :
    ∃ file : Tok, entry (cvec seq) (pos + 1) = some file ∧ ∀ n : Int,
      T.after (run o (exec_output_redirect (cvec seq) pos) 0).1 n =
        if n = o 0 then none
        else if n = STDOUT_FILENO then
          some (File.opened (some file) OpenHow.wronly_creat_trunc_0644)
        else T n := by
  obtain ⟨a, s, b, hseq, _, _, _, _, hane, hbne, hpos⟩ :=
    check_cmd_shape seq _ pos h (Or.inr (Or.inl rfl))
  obtain ⟨file, b, rfl⟩ : ∃ file b1, b = file :: b1 := by
    cases b with
    | nil => exact absurd rfl hbne
    | cons f b1 => exact ⟨f, b1, rfl⟩
  subst hseq hpos
  refine ⟨file, ?_, ?_⟩
  · rw [cvec_split, entry_after_symbol]
    rfl
  · intro n
    rw [exec_output_redirect_split a s file b hane]
    exact redirect_plan_fds T o file _ _ a h0 h1 h2 h3 hfd n

end Psh
